import Mathlib

/-!
Verification of the `rust_core` game-state analysis engine.

This file shallowly embeds the Rust sources (`strategy_engine.rs`,
`image_engine.rs`, `memory_engine.rs`) into Lean and proves the behavioural
claims about them.  Machine integers (`i32`, `u8`, `usize`, `u64`) are
modelled as `Int`/`Nat` (overflow is not modelled), `f32` values appearing in
arithmetic are modelled as exact rationals `ℚ`, and raw `f32` bit patterns
decoded from memory are modelled by an explicit IEEE-754 value type that
distinguishes NaN and infinities.  Hash maps and hash sets are modelled as
functions `α → Option β` resp. lists; the priority queue of the A* planner is
modelled as a key-unique association list together with an abstract selection
function that is only assumed to return an entry of minimal priority,
capturing the unspecified tie-breaking of the Rust `PriorityQueue`.
-/

/-- Position on a 2D grid (`GridPos` in `strategy_engine.rs`), with `i32`
coordinates modelled as `Int`. -/
structure GridPos where
  x : Int
  y : Int
deriving DecidableEq, Repr

/-- `GridPos::manhattan_distance`. -/
def GridPos.manhattan_distance (p q : GridPos) : Int :=
  ((p.x - q.x).natAbs : Int) + ((p.y - q.y).natAbs : Int)

/-- Chebyshev distance used as the 8-directional heuristic in
`find_path_8dir` (`dx.max(dy)` over absolute differences). -/
def GridPos.chebyshev (p q : GridPos) : Int :=
  max ((p.x - q.x).natAbs : Int) ((p.y - q.y).natAbs : Int)

/-- `PathResult` in `strategy_engine.rs`. -/
structure PathResult where
  path : List GridPos
  total_cost : Int
  found : Bool
deriving DecidableEq, Repr

/-- State of the A* main loop: the open set (an association list from
positions to stored f-score priorities, at most one entry per position, as in
the `PriorityQueue` crate), the `came_from` map and the `g_score` map. -/
structure AState where
  openL : List (GridPos × Int)
  g : GridPos → Option Int
  par : GridPos → Option GridPos

/-- Remove every entry with the given key from the open list (the effect of
`pop` on the popped item). -/
def eraseKey (l : List (GridPos × Int)) (k : GridPos) : List (GridPos × Int) :=
  l.filter (fun e => e.1 ≠ k)

/-- `PriorityQueue::push`: insert the key with the given priority, replacing
any existing entry for that key. -/
def pushOpen (l : List (GridPos × Int)) (k : GridPos) (v : Int) :
    List (GridPos × Int) :=
  (k, v) :: eraseKey l k

/-- A concrete minimum-priority selection: the first entry of the list whose
priority is minimal.  `find_path` uses this selector; the theorems are proved
for every selector that returns an entry of minimal priority. -/
def selMin : List (GridPos × Int) → GridPos × Int
  | [] => (⟨0, 0⟩, 0)
  | [e] => e
  | e :: e' :: es => if e.2 ≤ (selMin (e' :: es)).2 then e else selMin (e' :: es)

/-- A selection function is admissible if on a nonempty open list it returns
an entry of the list with minimal stored priority (Rust's `PriorityQueue::pop`
with its unspecified tie-breaking). -/
def SelSpec (sel : List (GridPos × Int) → GridPos × Int) : Prop :=
  ∀ l : List (GridPos × Int), l ≠ [] →
    sel l ∈ l ∧ ∀ e ∈ l, (sel l).2 ≤ e.2

/-- Path reconstruction: the `while let Some(&prev) = came_from.get(&node)`
loop, producing `[current, prev, prev of prev, ...]`.  The fuel bounds the
number of `came_from` hops; `none` models a reconstruction that would need
more hops than the fuel allows. -/
def buildPath (par : GridPos → Option GridPos) : Nat → GridPos → Option (List GridPos)
  | 0, n =>
    match par n with
    | none => some [n]
    | some _ => none
  | fuel + 1, n =>
    match par n with
    | none => some [n]
    | some p => (buildPath par fuel p).map (fun l => n :: l)

/-- Relax one neighbour `(n, cost)` of the popped node `cur` whose g-score is
`curG`: if `curG + cost` improves on the recorded g-score of `n` (absent
g-scores behave as `i32::MAX`, modelled as: an absent entry is always
improved), record the new g-score and parent and push `n` with f-score
`curG + cost + h n`. -/
def relaxOne (h : GridPos → Int) (cur : GridPos) (curG : Int)
    (st : AState) (e : GridPos × Int) : AState :=
  let tg := curG + e.2
  let improve : Bool :=
    match st.g e.1 with
    | none => true
    | some gn => decide (tg < gn)
  if improve then
    { openL := pushOpen st.openL e.1 (tg + h e.1)
      g := fun m => if m = e.1 then some tg else st.g m
      par := fun m => if m = e.1 then some cur else st.par m }
  else st

/-- The A* main loop (`while let Some((current, _)) = open_set.pop()`),
parametrised by the selection function, the neighbour enumeration and the
heuristic.  Fuel exhaustion is modelled as `none`. -/
def astarLoop (sel : List (GridPos × Int) → GridPos × Int)
    (nbrs : GridPos → List (GridPos × Int)) (h : GridPos → Int)
    (goal : GridPos) : Nat → AState → Option PathResult
  | 0, _ => none
  | fuel + 1, st =>
    match st.openL with
    | [] => some ⟨[], -1, false⟩
    | e :: es =>
      let cur := (sel (e :: es)).1
      if cur = goal then
        let gg := (st.g cur).getD 0
        match buildPath st.par gg.toNat cur with
        | some l => some ⟨l.reverse, gg, true⟩
        | none => none
      else
        let curG := (st.g cur).getD 2147483647
        astarLoop sel nbrs h goal fuel
          (List.foldl (relaxOne h cur curG)
            ⟨eraseKey (e :: es) cur, st.g, st.par⟩ (nbrs cur))

/-- The four orthogonal directions of `find_path`, in source order. -/
def dirs4 : List (Int × Int) := [(0, 1), (0, -1), (1, 0), (-1, 0)]

/-- Neighbour enumeration of `find_path`: for each direction, skip the
neighbour if it is out of bounds or an obstacle; every surviving neighbour has
uniform cost 1. -/
def nbrs4 (obstacles : List GridPos) (W H : Int) (p : GridPos) :
    List (GridPos × Int) :=
  dirs4.filterMap (fun d =>
    let n : GridPos := ⟨p.x + d.1, p.y + d.2⟩
    if n.x < 0 ∨ n.x ≥ W ∨ n.y < 0 ∨ n.y ≥ H then none
    else if n ∈ obstacles then none
    else some (n, 1))

/-- The eight directions of `find_path_8dir` with their step costs, in source
order. -/
def dirs8 : List (Int × Int × Int) :=
  [(0, 1, 10), (0, -1, 10), (1, 0, 10), (-1, 0, 10),
   (1, 1, 14), (1, -1, 14), (-1, 1, 14), (-1, -1, 14)]

/-- Neighbour enumeration of `find_path_8dir`: bounds check, obstacle check,
and for diagonal steps the corner-cutting check on the two orthogonally
adjacent cells. -/
def nbrs8 (obstacles : List GridPos) (W H : Int) (p : GridPos) :
    List (GridPos × Int) :=
  dirs8.filterMap (fun d =>
    let n : GridPos := ⟨p.x + d.1, p.y + d.2.1⟩
    if n.x < 0 ∨ n.x ≥ W ∨ n.y < 0 ∨ n.y ≥ H then none
    else if n ∈ obstacles then none
    else if d.1 ≠ 0 ∧ d.2.1 ≠ 0 then
      if (⟨p.x + d.1, p.y⟩ : GridPos) ∈ obstacles ∨
         (⟨p.x, p.y + d.2.1⟩ : GridPos) ∈ obstacles then none
      else some (n, d.2.2)
    else some (n, d.2.2))

/-- Fuel supplied to the main loop; any value large enough for the concrete
executions of interest works since all claims about the loop are conditional
on it returning a result. -/
def astarFuel (W H : Int) : Nat :=
  (W.natAbs + 2) * (H.natAbs + 2) * ((W.natAbs + 2) * (H.natAbs + 2)) * 16 + 16

/-- `PathfindingEngine::find_path`, parametrised by the open-set selection
function.  The two early returns (start = goal, blocked goal) precede the
search, mirroring the source. -/
def findPathWith (sel : List (GridPos × Int) → GridPos × Int)
    (start goal : GridPos) (obstacles : List GridPos) (W H : Int) :
    Option PathResult :=
  if start = goal then some ⟨[start], 0, true⟩
  else if goal ∈ obstacles then some ⟨[], -1, false⟩
  else
    astarLoop sel (nbrs4 obstacles W H) (fun p => p.manhattan_distance goal)
      goal (astarFuel W H)
      ⟨[(start, start.manhattan_distance goal)],
        fun p => if p = start then some 0 else none, fun _ => none⟩

/-- `PathfindingEngine::find_path` with the concrete first-minimum selector. -/
def find_path (start goal : GridPos) (obstacles : List GridPos) (W H : Int) :
    Option PathResult :=
  findPathWith selMin start goal obstacles W H

/-- `PathfindingEngine::find_path_8dir`, parametrised by the open-set
selection function.  Note that the initial push uses the unscaled Chebyshev
distance while all later pushes use f-scores with the heuristic scaled by 10,
exactly as in the source. -/
def findPath8With (sel : List (GridPos × Int) → GridPos × Int)
    (start goal : GridPos) (obstacles : List GridPos) (W H : Int) :
    Option PathResult :=
  if start = goal then some ⟨[start], 0, true⟩
  else if goal ∈ obstacles then some ⟨[], -1, false⟩
  else
    astarLoop sel (nbrs8 obstacles W H) (fun p => 10 * p.chebyshev goal)
      goal (astarFuel W H)
      ⟨[(start, start.chebyshev goal)],
        fun p => if p = start then some 0 else none, fun _ => none⟩

/-- `PathfindingEngine::find_path_8dir` with the concrete selector. -/
def find_path_8dir (start goal : GridPos) (obstacles : List GridPos)
    (W H : Int) : Option PathResult :=
  findPath8With selMin start goal obstacles W H

/-! ### Eliminate (match-3) engine, `strategy_engine.rs` -/

/-- A match-3 board: a rectangular grid of `u8` colour ids.  The Rust
`&[Vec<u8>]` is modelled by its dimensions together with a cell function (all
accesses performed by the source are in bounds on rectangular boards). -/
structure Board where
  rows : Nat
  cols : Nat
  cell : Nat → Nat → Nat

/-- `EliminateMove` in `strategy_engine.rs`. -/
structure EliminateMove where
  from_row : Nat
  from_col : Nat
  to_row : Nat
  to_col : Nat
  score : Int
  eliminates : Nat
  creates_special : Bool
deriving DecidableEq, Repr

/-- The `while left > 0 && board[row][left-1] == color` loop of
`evaluate_move`: number of consecutive cells of the given colour strictly to
the left of the given column. -/
def countLeft (b : Board) (row color : Nat) : Nat → Nat
  | 0 => 0
  | col + 1 => if b.cell row col = color then countLeft b row color col + 1 else 0

/-- Auxiliary recursion for the rightward run count, with the current column
as second argument. -/
def countRightAux (b : Board) (row color : Nat) : Nat → Nat → Nat
  | 0, _ => 0
  | fuel + 1, r =>
    if r + 1 < b.cols ∧ b.cell row (r + 1) = color then
      countRightAux b row color fuel (r + 1) + 1
    else 0

/-- The `while right < cols - 1 && board[row][right+1] == color` loop:
number of consecutive cells of the given colour strictly to the right of the
given column. -/
def countRight (b : Board) (row color col : Nat) : Nat :=
  countRightAux b row color b.cols col

/-- Upward run count (`while top > 0 && board[top-1][col] == color`). -/
def countUp (b : Board) (col color : Nat) : Nat → Nat
  | 0 => 0
  | row + 1 => if b.cell row col = color then countUp b col color row + 1 else 0

/-- Auxiliary recursion for the downward run count. -/
def countDownAux (b : Board) (col color : Nat) : Nat → Nat → Nat
  | 0, _ => 0
  | fuel + 1, r =>
    if r + 1 < b.rows ∧ b.cell (r + 1) col = color then
      countDownAux b col color fuel (r + 1) + 1
    else 0

/-- Downward run count (`while bottom < rows - 1 && board[bottom+1][col] ==
color`). -/
def countDown (b : Board) (col color row : Nat) : Nat :=
  countDownAux b col color b.rows row

/-- Contribution of one swapped endpoint in `evaluate_move`: the pair of its
eliminate count (`h_count` if ≥ 3 plus `v_count` if ≥ 3) and its
creates-special flag (a run of length ≥ 4, or a horizontal and a vertical run
of length ≥ 3 through the same cell). -/
def posContrib (b : Board) (row col : Nat) : Nat × Bool :=
  let color := b.cell row col
  if color = 0 then (0, false)
  else
    let hc := 1 + countLeft b row color col + countRight b row color col
    let vc := 1 + countUp b col color row + countDown b col color row
    ((if 3 ≤ hc then hc else 0) + (if 3 ≤ vc then vc else 0),
     decide (4 ≤ hc) || decide (4 ≤ vc) || (decide (3 ≤ hc) && decide (3 ≤ vc)))

/-- `EliminateEngine::evaluate_move`: total eliminates over both swapped
endpoints; a move is returned iff the total is at least 3.  The position
fields are zeroed as in the source (the caller overwrites them). -/
def evaluate_move (b : Board) (r1 c1 r2 c2 : Nat) : Option EliminateMove :=
  let p1 := posContrib b r1 c1
  let p2 := posContrib b r2 c2
  let total := p1.1 + p2.1
  let sp := p1.2 || p2.2
  if 3 ≤ total then
    some ⟨0, 0, 0, 0, (total : Int) * 10 + (if sp then 50 else 0), total, sp⟩
  else none

/-- Swap two cells of the board (the `test_board` construction). -/
def swapCells (b : Board) (r1 c1 r2 c2 : Nat) : Board :=
  { b with cell := fun r c =>
      if r = r1 ∧ c = c1 then b.cell r2 c2
      else if r = r2 ∧ c = c2 then b.cell r1 c1
      else b.cell r c }

/-- Horizontal swap candidates of `find_all_moves` (first double loop). -/
def hSwapMoves (b : Board) : List EliminateMove :=
  (List.range b.rows).flatMap (fun row =>
    (List.range (b.cols - 1)).filterMap (fun col =>
      if b.cell row col ≠ b.cell row (col + 1) ∧ b.cell row col ≠ 0 ∧
          b.cell row (col + 1) ≠ 0 then
        (evaluate_move (swapCells b row col row (col + 1)) row col row (col + 1)).map
          (fun mv => { mv with from_row := row, from_col := col,
                               to_row := row, to_col := col + 1 })
      else none))

/-- Vertical swap candidates of `find_all_moves` (second double loop). -/
def vSwapMoves (b : Board) : List EliminateMove :=
  (List.range (b.rows - 1)).flatMap (fun row =>
    (List.range b.cols).filterMap (fun col =>
      if b.cell row col ≠ b.cell (row + 1) col ∧ b.cell row col ≠ 0 ∧
          b.cell (row + 1) col ≠ 0 then
        (evaluate_move (swapCells b row col (row + 1) col) row col (row + 1) col).map
          (fun mv => { mv with from_row := row, from_col := col,
                               to_row := row + 1, to_col := col })
      else none))

/-- `EliminateEngine::find_all_moves`. -/
def find_all_moves (b : Board) : List EliminateMove :=
  if b.rows = 0 then [] else hSwapMoves b ++ vSwapMoves b

/-! ### Image engine, `image_engine.rs`.  `f32` arithmetic is modelled by
exact rationals. -/

/-- RGB colour (`Rgb` in `image_engine.rs`), `u8` channels as `Nat`. -/
structure Rgb where
  r : Nat
  g : Nat
  b : Nat
deriving DecidableEq, Repr

/-- `Rgb::distance_sq` (squared Euclidean distance over `i32` differences;
the final `u32` cast is the identity on the non-negative result). -/
def Rgb.distance_sq (a other : Rgb) : Int :=
  let dr := (a.r : Int) - other.r
  let dg := (a.g : Int) - other.g
  let db := (a.b : Int) - other.b
  dr * dr + dg * dg + db * db

/-- HSV colour (`Hsv` in `image_engine.rs`), components as rationals. -/
structure Hsv where
  h : ℚ
  s : ℚ
  v : ℚ
deriving DecidableEq, Repr

/-- Truncation toward zero, the rounding used by Rust's `%` on floats. -/
def ratTrunc (q : ℚ) : Int := if 0 ≤ q then ⌊q⌋ else -⌊-q⌋

/-- Rust `f32` remainder `x % y` (remainder with the sign of the dividend). -/
def fRem (x y : ℚ) : ℚ := x - y * ratTrunc (x / y)

/-- Body of `Rgb::to_hsv` on the three normalised channels: the standard
six-sector conversion with the guard `delta == 0 → hue 0`, the negative-hue
wrap, and `max == 0 → saturation 0`. -/
def hsvCore (r g b : ℚ) : Hsv :=
  let mx := max (max r g) b
  let mn := min (min r g) b
  let delta := mx - mn
  let h0 : ℚ :=
    if delta = 0 then 0
    else if mx = r then 60 * fRem ((g - b) / delta) 6
    else if mx = g then 60 * ((b - r) / delta + 2)
    else 60 * ((r - g) / delta + 4)
  let h := if h0 < 0 then h0 + 360 else h0
  let s := if mx = 0 then 0 else delta / mx
  ⟨h, s, mx⟩

/-- `Rgb::to_hsv`: normalise the channels to `[0,1]` and convert. -/
def Rgb.to_hsv (c : Rgb) : Hsv :=
  hsvCore ((c.r : ℚ) / 255) ((c.g : ℚ) / 255) ((c.b : ℚ) / 255)

/-- `Hsv::is_bright`: value above 0.7 and saturation below 0.3. -/
def Hsv.is_bright (x : Hsv) : Bool :=
  decide ((7 : ℚ) / 10 < x.v) && decide (x.s < 3 / 10)

/-- Rectangle (`Rect` in `image_engine.rs`), `i32` fields. -/
structure Rect where
  x : Int
  y : Int
  width : Int
  height : Int
deriving DecidableEq, Repr

/-- Element categories (`ElementType`). -/
inductive ElementType where
  | HealthBarEnemy | HealthBarAlly | HealthBarSelf | SkillButton | Joystick
  | EliminateChess | Button | TextArea | Unknown
deriving DecidableEq, Repr

/-- `DetectedElement`, confidence as a rational. -/
structure DetectedElement where
  element_type : ElementType
  bounds : Rect
  confidence : ℚ
  extra_data : Option String
deriving DecidableEq, Repr

/-- `ImageData`: width, height and the row-major pixel list. -/
structure ImageData where
  width : Nat
  height : Nat
  pixels : List Rgb

/-- The `chunks_exact(4)` loop of `from_argb_bytes`: each complete
`[A, R, G, B]` group yields one pixel, the alpha byte is dropped, any
incomplete trailing group is ignored. -/
def argbChunks : List Nat → List Rgb
  | _ :: r :: g :: b :: rest => ⟨r, g, b⟩ :: argbChunks rest
  | _ => []

/-- `ImageData::from_argb_bytes` (the width and height arguments are stored
unchecked). -/
def ImageData.from_argb_bytes (data : List Nat) (width height : Nat) : ImageData :=
  ⟨width, height, argbChunks data⟩

/-- The `chunks_exact(3)` loop of `from_rgb_bytes`. -/
def rgbChunks : List Nat → List Rgb
  | r :: g :: b :: rest => ⟨r, g, b⟩ :: rgbChunks rest
  | _ => []

/-- `ImageData::from_rgb_bytes`. -/
def ImageData.from_rgb_bytes (data : List Nat) (width height : Nat) : ImageData :=
  ⟨width, height, rgbChunks data⟩

/-- Pixel admissibility used by `find_circular_regions`: the source skips a
pixel iff `!hsv.is_bright() && hsv.s < 0.7`, so a pixel is admissible iff it
is bright or its saturation is at least 0.7. -/
def skillPixelOk (x : Hsv) : Bool :=
  !(!x.is_bright && decide (x.s < 7 / 10))

/-- State of one flood fill in `find_circular_regions`: the visited bitmap
(indexed row-major), the running bounding box and the filled pixel count. -/
structure FloodState where
  visited : Nat → Bool
  min_x : Nat
  max_x : Nat
  min_y : Nat
  max_y : Nat
  count : Nat

/-- The `while let Some((cx, cy)) = stack.pop()` flood fill of
`find_circular_regions`: skip visited or inadmissible pixels, otherwise mark
the pixel, extend the bounding box, bump the count and push the up-to-four
in-bounds neighbours.  The list head is the stack top, so the neighbours are
pushed in source order (left, right, up, down). -/
def floodLoop (hsvI : List Hsv) (width height : Nat) :
    Nat → List (Nat × Nat) → FloodState → FloodState
  | 0, _, fs => fs
  | _ + 1, [], fs => fs
  | fuel + 1, (cx, cy) :: stack, fs =>
    let cidx := cy * width + cx
    if fs.visited cidx then floodLoop hsvI width height fuel stack fs
    else if !skillPixelOk (hsvI.getD cidx ⟨0, 0, 0⟩) then
      floodLoop hsvI width height fuel stack fs
    else
      let fs' : FloodState :=
        { visited := fun i => if i = cidx then true else fs.visited i
          min_x := min fs.min_x cx, max_x := max fs.max_x cx
          min_y := min fs.min_y cy, max_y := max fs.max_y cy
          count := fs.count + 1 }
      let s1 := if 0 < cx then (cx - 1, cy) :: stack else stack
      let s2 := if cx + 1 < width then (cx + 1, cy) :: s1 else s1
      let s3 := if 0 < cy then (cx, cy - 1) :: s2 else s2
      let s4 := if cy + 1 < height then (cx, cy + 1) :: s3 else s3
      floodLoop hsvI width height fuel s4 fs'

/-- Accumulated state of the seed scan: the shared visited bitmap and the
regions emitted so far. -/
structure CircState where
  visited : Nat → Bool
  regions : List Rect

/-- The `f32` constant `std::f32::consts::PI` as an exact rational. -/
def piF32 : ℚ := 13176795 / 4194304

/-- Processing of one candidate seed in `find_circular_regions`: skip if
visited or inadmissible, otherwise flood fill and emit the bounding box when
the diameter, aspect and filled-fraction constraints hold. -/
def circSeedStep (hsvI : List Hsv) (width height min_diameter max_diameter : Nat)
    (cs : CircState) (xy : Nat × Nat) : CircState :=
  let idx := xy.2 * width + xy.1
  if cs.visited idx then cs
  else if !skillPixelOk (hsvI.getD idx ⟨0, 0, 0⟩) then cs
  else
    let fs := floodLoop hsvI width height (5 * width * height + 2) [xy]
      ⟨cs.visited, xy.1, xy.1, xy.2, xy.2, 0⟩
    let rw := fs.max_x - fs.min_x + 1
    let rh := fs.max_y - fs.min_y + 1
    let dia := max rw rh
    let aspq : ℚ := (rw : ℚ) / (rh : ℚ)
    let fillq : ℚ := (fs.count : ℚ) / (piF32 * ((dia : ℚ) / 2) ^ 2)
    if min_diameter ≤ dia ∧ dia ≤ max_diameter ∧ (7 : ℚ) / 10 < aspq ∧
        aspq < 7 / 5 ∧ 1 / 2 < fillq then
      ⟨fs.visited, cs.regions ++ [⟨(fs.min_x : Int), (fs.min_y : Int), (rw : Int), (rh : Int)⟩]⟩
    else ⟨fs.visited, cs.regions⟩

/-- Seed traversal order of `find_circular_regions`: row-major over
`y in 0..height`, `x in x_start..width`. -/
def seedList (width height x_start : Nat) : List (Nat × Nat) :=
  (List.range height).flatMap (fun y =>
    ((List.range width).drop x_start).map (fun x => (x, y)))

/-- `ImageEngine::find_circular_regions`, exposing the final visited bitmap
alongside the emitted regions. -/
def findCircularAux (hsvI : List Hsv) (width height x_start min_diameter max_diameter : Nat) :
    CircState :=
  (seedList width height x_start).foldl
    (circSeedStep hsvI width height min_diameter max_diameter)
    ⟨fun _ => false, []⟩

/-- `ImageEngine::find_circular_regions` (regions only). -/
def find_circular_regions (hsvI : List Hsv)
    (width height x_start min_diameter max_diameter : Nat) : List Rect :=
  (findCircularAux hsvI width height x_start min_diameter max_diameter).regions

/-- `ImageEngine::detect_skill_buttons`: restrict the seed search to the
right third of the image and wrap each region as a `SkillButton` with
confidence 0.75. -/
def detect_skill_buttons (image : ImageData) : List DetectedElement :=
  let search_x_start := image.width * 2 / 3
  let hsvI := image.pixels.map Rgb.to_hsv
  (find_circular_regions hsvI image.width image.height search_x_start 40 120).map
    (fun region => ⟨ElementType.SkillButton, region, 3 / 4, none⟩)

/-! ### Memory engine, `memory_engine.rs`.  The `/proc/pid/mem` pseudo-file
is abstracted by an oracle: `none` models a failed `File::open`, and the
per-region reader returns `none` when the seek or `read_exact` for that
region fails. -/

/-- `MemoryRegion` in `memory_engine.rs` (`u64` fields as `Nat`). -/
structure MemoryRegion where
  start_addr : Nat
  end_addr : Nat
  permissions : List Char
  offset : Nat
  device : String
  inode : Nat
  pathname : String
deriving DecidableEq, Repr

/-- `MemoryRegion::is_readable`: the permission string starts with `r`. -/
def MemoryRegion.is_readable (r : MemoryRegion) : Bool :=
  match r.permissions with
  | 'r' :: _ => true
  | _ => false

/-- `MemoryRegion::size`. -/
def MemoryRegion.size (r : MemoryRegion) : Nat := r.end_addr - r.start_addr

/-- `PatternMatch` in `memory_engine.rs`. -/
structure PatternMatch where
  address : Nat
  region_start : Nat
  offset_in_region : Nat
  matched_bytes : List Nat
deriving DecidableEq, Repr

/-- The inner mask test of `search_pattern_masked`: offset `i` is a hit iff
every position whose mask flag is set matches the pattern byte. -/
def maskedHit (pattern : List Nat) (mask : List Bool) (buf : List Nat) (i : Nat) : Bool :=
  (List.range pattern.length).all (fun j =>
    !mask.getD j false || decide (buf.getD (i + j) 0 = pattern.getD j 0))

/-- The `'outer` scan over candidate offsets of one region buffer: append a
match for each hit and stop (second component `true`) as soon as the
accumulated match count reaches the limit. -/
def scanIdx (pattern : List Nat) (mask : List Bool) (regionStart : Nat)
    (buf : List Nat) (limit : Nat) :
    List Nat → List PatternMatch → List PatternMatch × Bool
  | [], acc => (acc, false)
  | i :: is, acc =>
    if maskedHit pattern mask buf i then
      let acc' := acc ++
        [⟨regionStart + i, regionStart, i, (buf.drop i).take pattern.length⟩]
      if limit ≤ acc'.length then (acc', true)
      else scanIdx pattern mask regionStart buf limit is acc'
    else scanIdx pattern mask regionStart buf limit is acc

/-- The per-region loop of `search_pattern_masked`: skip unreadable or empty
regions and regions whose seek/read fails; scan the others, returning early
once the limit is reached. -/
def searchRegionsMasked (pattern : List Nat) (mask : List Bool)
    (rd : MemoryRegion → Option (List Nat)) (limit : Nat) :
    List MemoryRegion → List PatternMatch → List PatternMatch
  | [], acc => acc
  | r :: rs, acc =>
    if !r.is_readable || r.size = 0 then
      searchRegionsMasked pattern mask rd limit rs acc
    else
      match rd r with
      | none => searchRegionsMasked pattern mask rd limit rs acc
      | some buf =>
        let res := scanIdx pattern mask r.start_addr buf limit
          (List.range (buf.length - (pattern.length - 1))) acc
        if res.2 then res.1
        else searchRegionsMasked pattern mask rd limit rs res.1

/-- `MemoryEngine::search_pattern_masked`.  The length check precedes the
file open; `memFile = none` models a failed open of `/proc/pid/mem`. -/
def search_pattern_masked (pattern : List Nat) (mask : List Bool)
    (memFile : Option (MemoryRegion → Option (List Nat)))
    (regions : List MemoryRegion) (limit : Nat) :
    Except String (List PatternMatch) :=
  if pattern.length ≠ mask.length then
    Except.error "Pattern and mask length mismatch"
  else
    match memFile with
    | none => Except.error "Failed to open /proc/pid/mem"
    | some rd => Except.ok (searchRegionsMasked pattern mask rd limit regions [])

/-- Decoded IEEE-754 single-precision value: NaN, the two infinities, or an
exact finite rational (signed zeros both decode to `fin 0`). -/
inductive F32Val where
  | nan
  | negInf
  | posInf
  | fin (q : ℚ)
deriving DecidableEq, Repr

/-- Little-endian `u32` from four bytes. -/
def leU32 (b0 b1 b2 b3 : Nat) : Nat :=
  b0 + 256 * b1 + 65536 * b2 + 16777216 * b3

/-- `f32::from_le_bytes` on an already-assembled bit pattern. -/
def decodeF32 (n : Nat) : F32Val :=
  let s : Nat := n / 2 ^ 31 % 2
  let e : Nat := n / 2 ^ 23 % 256
  let m : Nat := n % 2 ^ 23
  if e = 255 then
    if m = 0 then (if s = 1 then F32Val.negInf else F32Val.posInf) else F32Val.nan
  else
    let mag : ℚ :=
      if e = 0 then (m : ℚ) / 2 ^ 149
      else ((2 : ℚ) ^ 23 + (m : ℚ)) * 2 ^ e / 2 ^ 150
    F32Val.fin (if s = 1 then -mag else mag)

/-- IEEE `<` on decoded values: any comparison involving NaN is false. -/
def fLt : F32Val → F32Val → Bool
  | F32Val.nan, _ => false
  | _, F32Val.nan => false
  | F32Val.negInf, F32Val.negInf => false
  | F32Val.negInf, _ => true
  | _, F32Val.negInf => false
  | F32Val.posInf, _ => false
  | _, F32Val.posInf => true
  | F32Val.fin a, F32Val.fin b => decide (a < b)

/-- IEEE `<=` on decoded values: any comparison involving NaN is false. -/
def fLe : F32Val → F32Val → Bool
  | F32Val.nan, _ => false
  | _, F32Val.nan => false
  | F32Val.negInf, _ => true
  | _, F32Val.negInf => false
  | _, F32Val.posInf => true
  | F32Val.posInf, _ => false
  | F32Val.fin a, F32Val.fin b => decide (a ≤ b)

/-- The little-endian `f32` at byte offset `i` of the buffer. -/
def f32At (data : List Nat) (i : Nat) : F32Val :=
  decodeF32 (leU32 (data.getD i 0) (data.getD (i + 1) 0)
    (data.getD (i + 2) 0) (data.getD (i + 3) 0))

/-- `GameDataStructures::parse_unity_stats`: require at least 16 bytes,
decode the four little-endian floats at offsets 0, 4, 8, 12 and apply the
sanity gate `hp >= 0 && hp <= max_hp && max_hp > 0 && max_hp < 100000`
(with IEEE comparison semantics, so NaN components fail the gate). -/
def parse_unity_stats (data : List Nat) :
    Option (F32Val × F32Val × F32Val × F32Val) :=
  if data.length < 16 then none
  else
    let hp := f32At data 0
    let max_hp := f32At data 4
    let mp := f32At data 8
    let max_mp := f32At data 12
    if fLe (F32Val.fin 0) hp && fLe hp max_hp && fLt (F32Val.fin 0) max_hp &&
        fLt max_hp (F32Val.fin 100000) then
      some (hp, max_hp, mp, max_mp)
    else none

/-! ### Combat engine, `strategy_engine.rs` -/

/-- `CombatAction`. -/
inductive CombatAction where
  | Attack | UseSkill | Retreat | MoveToPosition | Wait
deriving DecidableEq, Repr

/-- `CombatDecision` (`i32` priority as `Int`, `f32` fractions as `ℚ`). -/
structure CombatDecision where
  action : CombatAction
  target_pos : Option GridPos
  priority : Int
  reason : String
deriving DecidableEq, Repr

/-- Rust `Iterator::min_by_key`: the first element attaining the minimal
key. -/
def minByKeyFirst (f : GridPos × ℚ → Int) (l : List (GridPos × ℚ)) :
    Option (GridPos × ℚ) :=
  l.foldl (fun acc e =>
    match acc with
    | none => some e
    | some m => if f e < f m then some e else acc) none

/-- Stable insertion into a priority-descending list (model of
`sort_by(|a, b| b.priority.cmp(&a.priority))`, which is a stable sort). -/
def insertDesc (d : CombatDecision) : List CombatDecision → List CombatDecision
  | [] => [d]
  | e :: es => if d.priority ≤ e.priority then e :: insertDesc d es else d :: e :: es

/-- Stable sort by priority descending. -/
def sortDesc (l : List CombatDecision) : List CombatDecision :=
  l.foldr insertDesc []

/-- `CombatEngine::analyze_combat`: the six rules in source order, the first
two returning immediately (before the final sort). -/
def analyze_combat (self_pos : GridPos) (self_hp_percent : ℚ)
    (enemies : List (GridPos × ℚ)) (allies : List GridPos)
    (skill_ready : List Bool) (in_tower_range : Bool) : List CombatDecision :=
  if self_hp_percent < 1 / 5 then
    [⟨CombatAction.Retreat, none, 100, "HP critical, must retreat"⟩]
  else if in_tower_range && allies.isEmpty then
    [⟨CombatAction.Retreat, none, 90, "In enemy tower range without allies"⟩]
  else
    let killable := enemies.filter (fun e =>
      e.2 < 3 / 10 ∧ self_pos.manhattan_distance e.1 < 5)
    let d1 : List CombatDecision :=
      match killable with
      | [] => []
      | e :: _ => [⟨CombatAction.Attack, some e.1, 80, "Low HP enemy nearby"⟩]
    let d2 :=
      if skill_ready.getD 0 false && !enemies.isEmpty then
        match minByKeyFirst (fun e => self_pos.manhattan_distance e.1) enemies with
        | some t =>
          if self_pos.manhattan_distance t.1 < 6 then
            d1 ++ [⟨CombatAction.UseSkill, some t.1, 70, "Skill ready, enemy in range"⟩]
          else d1
        | none => d1
      else d1
    let d3 :=
      if allies.length + 1 < enemies.length ∧ self_hp_percent < 1 / 2 then
        d2 ++ [⟨CombatAction.Retreat, none, 60, "Outnumbered with low HP"⟩]
      else d2
    let d4 :=
      if d3 = [] then [⟨CombatAction.Wait, none, 10, "No immediate action needed"⟩]
      else d3
    sortDesc d4

/-! ### Specification-level definitions for the pathfinding claims -/

/-- Uniform step cost of the 4-connected planner. -/
def cost4 (_p _q : GridPos) : Int := 1

/-- Step cost of the 8-connected planner: 14 for diagonal steps, 10 for
orthogonal ones. -/
def cost8 (p q : GridPos) : Int :=
  if p.x ≠ q.x ∧ p.y ≠ q.y then 14 else 10

/-- Orthogonal adjacency: the two positions differ by one orthogonal step. -/
def adj4 (p q : GridPos) : Prop := (q.x - p.x, q.y - p.y) ∈ dirs4

/-- 8-connected adjacency with the corner-cutting prohibition: the positions
differ by one orthogonal or diagonal step, and a diagonal step requires both
orthogonally adjacent cells to be free of obstacles. -/
def adj8 (obstacles : List GridPos) (p q : GridPos) : Prop :=
  (∃ d ∈ dirs8, q.x = p.x + d.1 ∧ q.y = p.y + d.2.1) ∧
  (p.x ≠ q.x ∧ p.y ≠ q.y →
    (⟨q.x, p.y⟩ : GridPos) ∉ obstacles ∧ (⟨p.x, q.y⟩ : GridPos) ∉ obstacles)

/-- A legal step of the 4-connected search: orthogonal adjacency, target in
bounds, target not an obstacle. -/
def stepOk4 (obstacles : List GridPos) (W H : Int) (p q : GridPos) : Prop :=
  adj4 p q ∧ 0 ≤ q.x ∧ q.x < W ∧ 0 ≤ q.y ∧ q.y < H ∧ q ∉ obstacles

/-- A legal step of the 8-connected search: adjacency with the corner rule,
target in bounds, target not an obstacle. -/
def stepOk8 (obstacles : List GridPos) (W H : Int) (p q : GridPos) : Prop :=
  adj8 obstacles p q ∧ 0 ≤ q.x ∧ q.x < W ∧ 0 ≤ q.y ∧ q.y < H ∧ q ∉ obstacles

/-- Sum of per-step costs along a path. -/
def pathCost (c : GridPos → GridPos → Int) : List GridPos → Int
  | p :: q :: rest => c p q + pathCost c (q :: rest)
  | _ => 0

/-- Invariant of the A* loop state.  `openPrio` allows one exception to the
stored-priority law when the open list is a singleton, covering the initial
state of `find_path_8dir` whose first push uses the unscaled heuristic. -/
structure AInv (nbrs : GridPos → List (GridPos × Int)) (h : GridPos → Int)
    (start : GridPos) (st : AState) : Prop where
  gStart : st.g start = some 0
  parStart : st.par start = none
  gNonneg : ∀ n v, st.g n = some v → 0 ≤ v
  parEdge : ∀ n p, st.par n = some p → ∃ gp gn k, st.g p = some gp ∧
    st.g n = some gn ∧ (n, k) ∈ nbrs p ∧ gp + k ≤ gn
  parTotal : ∀ n v, st.g n = some v → n ≠ start → st.par n ≠ none
  openPrio : ∀ e ∈ st.openL, ∃ gn, st.g e.1 = some gn ∧
    (e.2 = gn + h e.1 ∨ st.openL.length = 1)
  closedRelaxed : ∀ n gn, st.g n = some gn → (∀ f, (n, f) ∉ st.openL) →
    ∀ q k, (q, k) ∈ nbrs n → ∃ gq, st.g q = some gq ∧ gq ≤ gn + k

/-- Invariant holding while the popped node `cur` (with g-score `curG`) is
being relaxed: like `AInv` but with exact stored priorities, with `cur`
removed from the open list, and with the fully-relaxed property required only
of closed nodes other than `cur`. -/
structure RelaxInv (nbrs : GridPos → List (GridPos × Int)) (h : GridPos → Int)
    (start : GridPos) (cur : GridPos) (curG : Int) (st : AState) : Prop where
  gStart : st.g start = some 0
  parStart : st.par start = none
  gNonneg : ∀ n v, st.g n = some v → 0 ≤ v
  parEdge : ∀ n p, st.par n = some p → ∃ gp gn k, st.g p = some gp ∧
    st.g n = some gn ∧ (n, k) ∈ nbrs p ∧ gp + k ≤ gn
  parTotal : ∀ n v, st.g n = some v → n ≠ start → st.par n ≠ none
  openPrioS : ∀ e ∈ st.openL, ∃ gn, st.g e.1 = some gn ∧ e.2 = gn + h e.1
  closedRelaxedX : ∀ n gn, n ≠ cur → st.g n = some gn →
    (∀ f, (n, f) ∉ st.openL) → ∀ q k, (q, k) ∈ nbrs n →
    ∃ gq, st.g q = some gq ∧ gq ≤ gn + k
  gCur : st.g cur = some curG
  curNotOpen : ∀ f, (cur, f) ∉ st.openL

/-- Soundness package for a successful A* run: the path is a chain of
edges of the searched graph from start to goal, the reported cost is the sum
of its step costs, and no start-to-goal edge chain is cheaper. -/
def LoopGood (nbrs : GridPos → List (GridPos × Int)) (c : GridPos → GridPos → Int)
    (start goal : GridPos) (res : PathResult) : Prop :=
  res.path.head? = some start ∧ res.path.getLast? = some goal ∧
  List.Chain' (fun a b => ∃ k, (b, k) ∈ nbrs a) res.path ∧
  res.total_cost = pathCost c res.path ∧
  ∀ q, q.head? = some start → q.getLast? = some goal →
    List.Chain' (fun a b => ∃ k, (b, k) ∈ nbrs a) q →
    res.total_cost ≤ pathCost c q

/-! ### Specification-level definitions for the match-3 claims -/

/-- `n` is the length of the maximal horizontal run of same-coloured cells
through `(row, col)`: an interval `[a, e]` of columns containing `col`, all
of the cell's colour, that can be extended in neither direction. -/
def IsMaxRunH (bd : Board) (row col n : Nat) : Prop :=
  ∃ a e, a ≤ col ∧ col ≤ e ∧ e < bd.cols ∧ n = e + 1 - a ∧
    (∀ j, a ≤ j → j ≤ e → bd.cell row j = bd.cell row col) ∧
    (a = 0 ∨ bd.cell row (a - 1) ≠ bd.cell row col) ∧
    (e + 1 = bd.cols ∨ bd.cell row (e + 1) ≠ bd.cell row col)

/-- `n` is the length of the maximal vertical run of same-coloured cells
through `(row, col)`. -/
def IsMaxRunV (bd : Board) (row col n : Nat) : Prop :=
  ∃ a e, a ≤ row ∧ row ≤ e ∧ e < bd.rows ∧ n = e + 1 - a ∧
    (∀ j, a ≤ j → j ≤ e → bd.cell j col = bd.cell row col) ∧
    (a = 0 ∨ bd.cell (a - 1) col ≠ bd.cell row col) ∧
    (e + 1 = bd.rows ∨ bd.cell (e + 1) col ≠ bd.cell row col)

/-- The cell `(row, col)` participates in a horizontal run of length at
least 3. -/
def HasRun3H (bd : Board) (row col : Nat) : Prop :=
  ∃ a e, a ≤ col ∧ col ≤ e ∧ e < bd.cols ∧ 3 ≤ e + 1 - a ∧
    ∀ j, a ≤ j → j ≤ e → bd.cell row j = bd.cell row col

/-- The cell `(row, col)` participates in a vertical run of length at
least 3. -/
def HasRun3V (bd : Board) (row col : Nat) : Prop :=
  ∃ a e, a ≤ row ∧ row ≤ e ∧ e < bd.rows ∧ 3 ≤ e + 1 - a ∧
    ∀ j, a ≤ j → j ≤ e → bd.cell j col = bd.cell row col

/-- The cell participates in a run of length at least 3 (either
orientation) — the spec's validity criterion for a swap endpoint. -/
def HasRun3 (bd : Board) (row col : Nat) : Prop :=
  HasRun3H bd row col ∨ HasRun3V bd row col

/-- The 5×5 board of the repository's `test_eliminate_find_moves` test,
used as a concrete fixture. -/
def sampleBoard : Board :=
  ⟨5, 5, fun r c =>
    (([[1, 1, 2, 3, 4], [2, 2, 2, 4, 5], [3, 3, 3, 5, 6],
       [4, 4, 4, 6, 1], [5, 5, 5, 1, 2]].getD r []).getD c 0)⟩

/-! ## Theorems -/

/-- The chunk length laws of `chunks_exact(4)`. -/
theorem argbChunks_length : ∀ l : List Nat, (argbChunks l).length = l.length / 4
  | [] => rfl
  | [_] => by simp [argbChunks]
  | [_, _] => by simp [argbChunks]
  | [_, _, _] => by simp [argbChunks]
  | _ :: _ :: _ :: _ :: rest => by
    simp only [argbChunks, List.length_cons, argbChunks_length rest]
    omega

/-- The chunk length laws of `chunks_exact(3)`. -/
theorem rgbChunks_length : ∀ l : List Nat, (rgbChunks l).length = l.length / 3
  | [] => rfl
  | [_] => by simp [rgbChunks]
  | [_, _] => by simp [rgbChunks]
  | _ :: _ :: _ :: rest => by
    simp only [rgbChunks, List.length_cons, rgbChunks_length rest]
    omega

/-- C10: `from_argb_bytes` always yields `⌊len/4⌋` pixels and
`from_rgb_bytes` `⌊len/3⌋` pixels, independently of the width and height
arguments; in particular an 8-byte ARGB buffer with declared dimensions 1×1
stores 2 pixels, violating `width · height = pixels.length`. -/
theorem c10_byte_constructors :
    (∀ (data : List Nat) (w h : Nat),
      (ImageData.from_argb_bytes data w h).pixels.length = data.length / 4) ∧
    (∀ (data : List Nat) (w h : Nat),
      (ImageData.from_rgb_bytes data w h).pixels.length = data.length / 3) ∧
    (ImageData.from_argb_bytes [0, 0, 0, 0, 0, 0, 0, 0] 1 1).pixels.length = 2 ∧
    1 * 1 < (ImageData.from_argb_bytes [0, 0, 0, 0, 0, 0, 0, 0] 1 1).pixels.length :=
  ⟨fun data _ _ => argbChunks_length data,
   fun data _ _ => rgbChunks_length data,
   by decide, by decide⟩

/-- C9: when start equals goal, both planners report success with the
singleton path and cost 0, for every obstacle set — in particular when the
shared position is itself an obstacle (the start-equals-goal check precedes
the blocked-goal check). -/
theorem c9_start_eq_goal :
    (∀ (s : GridPos) (obstacles : List GridPos) (W H : Int),
      find_path s s obstacles W H = some ⟨[s], 0, true⟩ ∧
      find_path_8dir s s obstacles W H = some ⟨[s], 0, true⟩) ∧
    find_path ⟨0, 0⟩ ⟨0, 0⟩ [⟨0, 0⟩] 5 5 = some ⟨[⟨0, 0⟩], 0, true⟩ := by
  refine ⟨fun s obstacles W H => ⟨?_, ?_⟩, by decide⟩ <;>
    simp [find_path, findPathWith, find_path_8dir, findPath8With]

/-- C8: HP strictly below 0.2 short-circuits `analyze_combat` into the
single retreat decision with priority 100 and the exact reason string,
regardless of the other inputs. -/
theorem c8_hp_critical_retreat (self_pos : GridPos) (self_hp_percent : ℚ)
    (enemies : List (GridPos × ℚ)) (allies : List GridPos)
    (skill_ready : List Bool) (in_tower_range : Bool)
    (hhp : self_hp_percent < 1 / 5) :
    analyze_combat self_pos self_hp_percent enemies allies skill_ready
      in_tower_range =
      [⟨CombatAction.Retreat, none, 100, "HP critical, must retreat"⟩] := by
  unfold analyze_combat
  rw [if_pos hhp]

/-- Witness for C8 at a concrete combat situation. -/
theorem c8_hp_critical_retreat_witness :
    (1 : ℚ) / 10 < 1 / 5 ∧
    analyze_combat ⟨5, 5⟩ (1 / 10) [(⟨7, 5⟩, 8 / 10)] [⟨4, 5⟩] [true] true =
      [⟨CombatAction.Retreat, none, 100, "HP critical, must retreat"⟩] :=
  ⟨by norm_num,
   c8_hp_critical_retreat ⟨5, 5⟩ (1 / 10) [(⟨7, 5⟩, 8 / 10)] [⟨4, 5⟩] [true]
     true (by norm_num)⟩

/-- C7: `parse_unity_stats` returns the four little-endian floats at
offsets 0, 4, 8, 12 exactly when the buffer holds at least 16 bytes and the
sanity gate (with IEEE comparison semantics) passes; a buffer whose `hp`
bytes decode to NaN yields `none`. -/
theorem c7_parse_unity_stats :
    (∀ (data : List Nat) (t : F32Val × F32Val × F32Val × F32Val),
      parse_unity_stats data = some t ↔
        (16 ≤ data.length ∧
         fLe (F32Val.fin 0) (f32At data 0) = true ∧
         fLe (f32At data 0) (f32At data 4) = true ∧
         fLt (F32Val.fin 0) (f32At data 4) = true ∧
         fLt (f32At data 4) (F32Val.fin 100000) = true ∧
         t = (f32At data 0, f32At data 4, f32At data 8, f32At data 12))) ∧
    parse_unity_stats [0, 0, 192, 255, 0, 0, 0, 0, 0, 0, 0, 0, 0, 0, 0, 0] =
      none := by
  constructor
  · intro data t
    simp only [parse_unity_stats]
    split_ifs with h16 hgate
    · constructor
      · intro hcontra; exact absurd hcontra (by simp)
      · rintro ⟨h16le, -⟩; omega
    · simp only [Bool.and_eq_true] at hgate
      obtain ⟨⟨⟨h1, h2⟩, h3⟩, h4⟩ := hgate
      constructor
      · intro hsome
        refine ⟨by omega, h1, h2, h3, h4, ?_⟩
        exact (Option.some_inj.mp hsome).symm
      · rintro ⟨-, -, -, -, -, rfl⟩; rfl
    · constructor
      · intro hcontra; exact absurd hcontra (by simp)
      · rintro ⟨-, h1, h2, h3, h4, rfl⟩
        exact hgate (by rw [h1, h2, h3, h4]; rfl)
  · decide

/-- The buffer scan of `search_pattern_masked` keeps the match list within
the limit: if the accumulator is strictly below the limit, the result stays
at or below it, strictly below when the scan did not stop. -/
theorem scanIdx_bound (pattern : List Nat) (mask : List Bool)
    (rs : Nat) (buf : List Nat) (limit : Nat) :
    ∀ (idxs : List Nat) (acc : List PatternMatch), acc.length < limit →
      (scanIdx pattern mask rs buf limit idxs acc).1.length ≤ limit ∧
      ((scanIdx pattern mask rs buf limit idxs acc).2 = false →
        (scanIdx pattern mask rs buf limit idxs acc).1.length < limit) := by
  intro idxs
  induction idxs with
  | nil =>
    intro acc hacc
    exact ⟨le_of_lt hacc, fun _ => hacc⟩
  | cons i is ih =>
    intro acc hacc
    simp only [scanIdx]
    split
    · split
      case isTrue hstop =>
        refine ⟨?_, fun hfalse => by simp at hfalse⟩
        simpa using hacc
      case isFalse hcont =>
        apply ih
        simp only [List.length_append, List.length_cons, List.length_nil] at hcont ⊢
        omega
    · exact ih acc hacc

/-- The per-region loop of `search_pattern_masked` keeps the match list
within the limit. -/
theorem searchRegionsMasked_bound (pattern : List Nat) (mask : List Bool)
    (rd : MemoryRegion → Option (List Nat)) (limit : Nat) :
    ∀ (regions : List MemoryRegion) (acc : List PatternMatch),
      acc.length < limit →
      (searchRegionsMasked pattern mask rd limit regions acc).length ≤ limit := by
  intro regions
  induction regions with
  | nil => intro acc hacc; exact le_of_lt hacc
  | cons r rs ih =>
    intro acc hacc
    simp only [searchRegionsMasked]
    split
    · exact ih acc hacc
    · rcases hrd : rd r with - | buf
      · simpa only [hrd] using ih acc hacc
      · simp only [hrd]
        have hb := scanIdx_bound pattern mask r.start_addr buf limit
          (List.range (buf.length - (pattern.length - 1))) acc hacc
        split
        case isTrue hstop => exact hb.1
        case isFalse hcont =>
          exact ih _ (hb.2 (Bool.not_eq_true _ ▸ hcont))

/-- C6 (amended): a pattern/mask length mismatch is an error before any
memory is consulted (for every state of the memory pseudo-file oracle), and
for every positive limit a successful masked search returns at most `limit`
matches.  (With `limit = 0` the search can return one match, see the
counterexample.) -/
theorem c6_masked_search :
    (∀ (pattern : List Nat) (mask : List Bool)
       (memFile : Option (MemoryRegion → Option (List Nat)))
       (regions : List MemoryRegion) (limit : Nat),
      pattern.length ≠ mask.length →
      search_pattern_masked pattern mask memFile regions limit =
        Except.error "Pattern and mask length mismatch") ∧
    (∀ (pattern : List Nat) (mask : List Bool)
       (memFile : Option (MemoryRegion → Option (List Nat)))
       (regions : List MemoryRegion) (limit : Nat) (ms : List PatternMatch),
      1 ≤ limit →
      search_pattern_masked pattern mask memFile regions limit = Except.ok ms →
      ms.length ≤ limit) := by
  constructor
  · intro pattern mask memFile regions limit hne
    simp [search_pattern_masked, hne]
  · intro pattern mask memFile regions limit ms hlim hok
    unfold search_pattern_masked at hok
    split at hok
    · exact absurd hok (by simp)
    · rcases memFile with - | rd
      · exact absurd hok (by simp)
      · simp only [Except.ok.injEq] at hok
        subst hok
        exact searchRegionsMasked_bound pattern mask rd limit regions []
          (by simp only [List.length_nil]; omega)

/-- C6 counterexample: with `limit = 0` the masked search still returns one
match, because the limit check runs only after a match has been recorded. -/
theorem c6_limit_zero_cx :
    search_pattern_masked [0] [true] (some fun _ => some [0])
      [⟨0, 1, ['r', '-', '-', 'p'], 0, "00:00", 0, ""⟩] 0 =
      Except.ok [⟨0, 0, 0, [0]⟩] ∧
    ¬ ([(⟨0, 0, 0, [0]⟩ : PatternMatch)].length ≤ 0) := by
  constructor
  · rfl
  · simp

/-- Witness for C6 at a concrete search. -/
theorem c6_masked_search_witness :
    ([0, 1] : List Nat).length ≠ ([true] : List Bool).length ∧
    search_pattern_masked [0, 1] [true] (some fun _ => some [0])
      [⟨0, 1, ['r', '-', '-', 'p'], 0, "00:00", 0, ""⟩] 3 =
      Except.error "Pattern and mask length mismatch" ∧
    (1 : Nat) ≤ 1 ∧
    search_pattern_masked [0] [true] (some fun _ => some [0, 0, 0])
      [⟨0, 3, ['r', '-', '-', 'p'], 0, "00:00", 0, ""⟩] 1 =
      Except.ok [⟨0, 0, 0, [0]⟩] ∧
    ([(⟨0, 0, 0, [0]⟩ : PatternMatch)] : List PatternMatch).length ≤ 1 :=
  ⟨by decide,
   c6_masked_search.1 [0, 1] [true] (some fun _ => some [0])
     [⟨0, 1, ['r', '-', '-', 'p'], 0, "00:00", 0, ""⟩] 3 (by decide),
   by decide,
   by rfl,
   c6_masked_search.2 [0] [true] (some fun _ => some [0, 0, 0])
     [⟨0, 3, ['r', '-', '-', 'p'], 0, "00:00", 0, ""⟩] 1 [⟨0, 0, 0, [0]⟩]
     (by decide) (by rfl)⟩

/-- The float remainder by 6 is the identity on `[-1, 1]`. -/
theorem fRem_small (x : ℚ) (h1 : -1 ≤ x) (h2 : x ≤ 1) : fRem x 6 = x := by
  unfold fRem ratTrunc
  split_ifs with hx
  · have hfl : ⌊x / 6⌋ = 0 := by
      rw [Int.floor_eq_zero_iff]
      refine ⟨hx, ?_⟩
      rw [div_lt_one (by norm_num : (0 : ℚ) < 6)]
      linarith
    rw [hfl]
    push_cast
    ring
  · have hfl : ⌊-(x / 6)⌋ = 0 := by
      rw [Int.floor_eq_zero_iff]
      constructor
      · push_neg at hx
        linarith
      · rw [neg_div'] at *
        rw [div_lt_one (by norm_num : (0 : ℚ) < 6)]
        linarith
    rw [hfl]
    push_cast
    ring

/-- Ranges of the HSV conversion on normalised channels in `[0, 1]`. -/
theorem hsvCore_range (r g b : ℚ) (hr0 : 0 ≤ r) (hr1 : r ≤ 1) (hg0 : 0 ≤ g)
    (hg1 : g ≤ 1) (hb0 : 0 ≤ b) (hb1 : b ≤ 1) :
    0 ≤ (hsvCore r g b).h ∧ (hsvCore r g b).h < 360 ∧
    0 ≤ (hsvCore r g b).s ∧ (hsvCore r g b).s ≤ 1 ∧
    0 ≤ (hsvCore r g b).v ∧ (hsvCore r g b).v ≤ 1 := by
  have hrmx : r ≤ max (max r g) b := le_trans (le_max_left r g) (le_max_left _ b)
  have hgmx : g ≤ max (max r g) b := le_trans (le_max_right r g) (le_max_left _ b)
  have hbmx : b ≤ max (max r g) b := le_max_right _ b
  have hmnr : min (min r g) b ≤ r := le_trans (min_le_left _ b) (min_le_left r g)
  have hmng : min (min r g) b ≤ g := le_trans (min_le_left _ b) (min_le_right r g)
  have hmnb : min (min r g) b ≤ b := min_le_right _ b
  have hmx1 : max (max r g) b ≤ 1 := max_le (max_le hr1 hg1) hb1
  have hmx0 : 0 ≤ max (max r g) b := le_trans hr0 hrmx
  have hmn0 : 0 ≤ min (min r g) b := le_min (le_min hr0 hg0) hb0
  simp only [hsvCore]
  refine ⟨?_, ?_, ?_, ?_, hmx0, hmx1⟩
  · split_ifs with hd hmxr hmxg hwrap hwrap hwrap hwrap <;> try linarith
    · -- mx = r, wrapped
      have hdpos : 0 < max (max r g) b - min (min r g) b :=
        lt_of_le_of_ne (by linarith) (Ne.symm hd)
      have hq1 : (g - b) / (max (max r g) b - min (min r g) b) ≤ 1 := by
        rw [div_le_one hdpos]; linarith
      have hq2 : -1 ≤ (g - b) / (max (max r g) b - min (min r g) b) := by
        rw [le_div_iff₀ hdpos]; linarith
      rw [fRem_small _ hq2 hq1] at *
      linarith
    · -- mx = g, wrapped: impossible since h0 ≥ 60
      have hdpos : 0 < max (max r g) b - min (min r g) b :=
        lt_of_le_of_ne (by linarith) (Ne.symm hd)
      have hq2 : -1 ≤ (b - r) / (max (max r g) b - min (min r g) b) := by
        rw [le_div_iff₀ hdpos]; linarith
      linarith
    · -- else branch, wrapped: impossible since h0 ≥ 180
      have hdpos : 0 < max (max r g) b - min (min r g) b :=
        lt_of_le_of_ne (by linarith) (Ne.symm hd)
      have hq2 : -1 ≤ (r - g) / (max (max r g) b - min (min r g) b) := by
        rw [le_div_iff₀ hdpos]; linarith
      linarith
  · split_ifs with hd hmxr hmxg hwrap hwrap hwrap hwrap <;> try linarith
    · -- mx = r, not wrapped
      have hdpos : 0 < max (max r g) b - min (min r g) b :=
        lt_of_le_of_ne (by linarith) (Ne.symm hd)
      have hq1 : (g - b) / (max (max r g) b - min (min r g) b) ≤ 1 := by
        rw [div_le_one hdpos]; linarith
      have hq2 : -1 ≤ (g - b) / (max (max r g) b - min (min r g) b) := by
        rw [le_div_iff₀ hdpos]; linarith
      rw [fRem_small _ hq2 hq1] at *
      linarith
    · -- mx = g, not wrapped
      have hdpos : 0 < max (max r g) b - min (min r g) b :=
        lt_of_le_of_ne (by linarith) (Ne.symm hd)
      have hq1 : (b - r) / (max (max r g) b - min (min r g) b) ≤ 1 := by
        rw [div_le_one hdpos]; linarith
      linarith
    · -- else branch, not wrapped
      have hdpos : 0 < max (max r g) b - min (min r g) b :=
        lt_of_le_of_ne (by linarith) (Ne.symm hd)
      have hq1 : (r - g) / (max (max r g) b - min (min r g) b) ≤ 1 := by
        rw [div_le_one hdpos]; linarith
      linarith
  · split_ifs with hmxz
    · norm_num
    · have hmxpos : 0 < max (max r g) b := lt_of_le_of_ne hmx0 (Ne.symm hmxz)
      exact div_nonneg (by linarith) (le_of_lt hmxpos)
  · split_ifs with hmxz
    · norm_num
    · have hmxpos : 0 < max (max r g) b := lt_of_le_of_ne hmx0 (Ne.symm hmxz)
      rw [div_le_one hmxpos]
      linarith

/-- C4: for every RGB colour, the HSV conversion is total with hue in
`[0, 360)`, saturation and value in `[0, 1]`; the fully black pixel has hue
0; and the squared colour distance of a colour to itself is 0. -/
theorem c4_rgb_to_hsv (c : Rgb) (hr : c.r ≤ 255) (hg : c.g ≤ 255)
    (hb : c.b ≤ 255) :
    0 ≤ (Rgb.to_hsv c).h ∧ (Rgb.to_hsv c).h < 360 ∧
    0 ≤ (Rgb.to_hsv c).s ∧ (Rgb.to_hsv c).s ≤ 1 ∧
    0 ≤ (Rgb.to_hsv c).v ∧ (Rgb.to_hsv c).v ≤ 1 ∧
    (Rgb.to_hsv ⟨0, 0, 0⟩).h = 0 ∧
    Rgb.distance_sq c c = 0 := by
  have hch : ∀ n : Nat, n ≤ 255 → 0 ≤ (n : ℚ) / 255 ∧ (n : ℚ) / 255 ≤ 1 := by
    intro n hn
    constructor
    · positivity
    · rw [div_le_one (by norm_num : (0 : ℚ) < 255)]
      exact_mod_cast hn
  obtain ⟨hr0, hr1⟩ := hch c.r hr
  obtain ⟨hg0, hg1⟩ := hch c.g hg
  obtain ⟨hb0, hb1⟩ := hch c.b hb
  have hmain := hsvCore_range _ _ _ hr0 hr1 hg0 hg1 hb0 hb1
  refine ⟨hmain.1, hmain.2.1, hmain.2.2.1, hmain.2.2.2.1, hmain.2.2.2.2.1,
    hmain.2.2.2.2.2, ?_, ?_⟩
  · norm_num [Rgb.to_hsv, hsvCore]
  · simp [Rgb.distance_sq]

/-- Witness for C4 at a concrete colour. -/
theorem c4_rgb_to_hsv_witness :
    (10 : Nat) ≤ 255 ∧ (200 : Nat) ≤ 255 ∧ (30 : Nat) ≤ 255 ∧
    (0 ≤ (Rgb.to_hsv ⟨10, 200, 30⟩).h ∧ (Rgb.to_hsv ⟨10, 200, 30⟩).h < 360 ∧
     0 ≤ (Rgb.to_hsv ⟨10, 200, 30⟩).s ∧ (Rgb.to_hsv ⟨10, 200, 30⟩).s ≤ 1 ∧
     0 ≤ (Rgb.to_hsv ⟨10, 200, 30⟩).v ∧ (Rgb.to_hsv ⟨10, 200, 30⟩).v ≤ 1 ∧
     (Rgb.to_hsv ⟨0, 0, 0⟩).h = 0 ∧
     Rgb.distance_sq ⟨10, 200, 30⟩ ⟨10, 200, 30⟩ = 0) :=
  ⟨by norm_num, by norm_num, by norm_num,
   c4_rgb_to_hsv ⟨10, 200, 30⟩ (by norm_num) (by norm_num) (by norm_num)⟩

/-- Every pixel newly visited by the flood fill of `find_circular_regions`
satisfies the pixel-admissibility test (bright, or saturation at least
0.7). -/
theorem floodLoop_visited_admissible (hsvI : List Hsv) (width height : Nat) :
    ∀ (fuel : Nat) (stack : List (Nat × Nat)) (fs : FloodState) (idx : Nat),
      (floodLoop hsvI width height fuel stack fs).visited idx = true →
      fs.visited idx = true ∨ skillPixelOk (hsvI.getD idx ⟨0, 0, 0⟩) = true := by
  intro fuel
  induction fuel with
  | zero => intro stack fs idx hvis; exact Or.inl hvis
  | succ n ih =>
    intro stack fs idx hvis
    cases stack with
    | nil => exact Or.inl hvis
    | cons c rest =>
      obtain ⟨cx, cy⟩ := c
      simp only [floodLoop] at hvis
      split at hvis
      · exact ih rest fs idx hvis
      · split at hvis
        · exact ih rest fs idx hvis
        · rename_i hadm
          rcases ih _ _ idx hvis with hold | hok
          · simp only at hold
            by_cases hidx : idx = cy * width + cx
            · right
              subst hidx
              simpa using hadm
            · rw [if_neg hidx] at hold
              exact Or.inl hold
          · exact Or.inr hok

/-- Every pixel marked visited over the whole seed scan of
`find_circular_regions` satisfies the pixel-admissibility test. -/
theorem findCircularAux_visited_admissible
    (hsvI : List Hsv) (w h xs mind maxd : Nat) :
    ∀ idx, (findCircularAux hsvI w h xs mind maxd).visited idx = true →
      skillPixelOk (hsvI.getD idx ⟨0, 0, 0⟩) = true := by
  have H : ∀ (seeds : List (Nat × Nat)) (cs : CircState),
      (∀ idx, cs.visited idx = true →
        skillPixelOk (hsvI.getD idx ⟨0, 0, 0⟩) = true) →
      ∀ idx, ((seeds.foldl (circSeedStep hsvI w h mind maxd) cs).visited idx =
        true) → skillPixelOk (hsvI.getD idx ⟨0, 0, 0⟩) = true := by
    intro seeds
    induction seeds with
    | nil => intro cs hcs idx hvis; exact hcs idx hvis
    | cons s ss ih =>
      intro cs hcs idx hvis
      refine ih (circSeedStep hsvI w h mind maxd cs s) ?_ idx hvis
      intro j hj
      simp only [circSeedStep] at hj
      split at hj
      · exact hcs j hj
      · split at hj
        · exact hcs j hj
        · split at hj <;>
          · simp only at hj
            rcases floodLoop_visited_admissible hsvI w h _ _ _ j hj with hold | hok
            · exact hcs j hold
            · exact hok
  intro idx hvis
  exact H _ ⟨fun _ => false, []⟩ (fun j hj => by simp at hj) idx hvis

/-- Seeds examined by the scan lie in the requested column range. -/
theorem seedList_mem_bounds (width height x_start : Nat) :
    ∀ p ∈ seedList width height x_start,
      x_start ≤ p.1 ∧ p.1 < width ∧ p.2 < height := by
  intro p hp
  simp only [seedList, List.mem_flatMap, List.mem_map, List.mem_range] at hp
  obtain ⟨y, hy, x, hx, rfl⟩ := hp
  rw [List.mem_drop_iff_getElem] at hx
  obtain ⟨i, hi, rfl⟩ := hx
  simp only [List.getElem_range]
  simp only [List.length_range] at hi
  omega

/-- C5 (amended): in skill-button detection a pixel is admissible iff it is
bright or its saturation is at least 0.7 (the source admits saturation
exactly 0.7, the strict reading fails); every pixel visited by the region
scan is admissible in that sense; and flood-fill seeds are drawn exactly
from the right third `x ≥ ⌊2·width/3⌋` of the image. -/
theorem c5_skill_admissibility :
    (∀ x : Hsv, skillPixelOk x = (x.is_bright || decide ((7 : ℚ) / 10 ≤ x.s))) ∧
    (∀ (hsvI : List Hsv) (w h xs mind maxd idx : Nat),
      (findCircularAux hsvI w h xs mind maxd).visited idx = true →
      (hsvI.getD idx ⟨0, 0, 0⟩).is_bright = true ∨
        (7 : ℚ) / 10 ≤ (hsvI.getD idx ⟨0, 0, 0⟩).s) ∧
    (∀ (image : ImageData) (p : Nat × Nat),
      p ∈ seedList image.width image.height (image.width * 2 / 3) →
      image.width * 2 / 3 ≤ p.1 ∧ p.1 < image.width) := by
  have hchar : ∀ x : Hsv,
      skillPixelOk x = (x.is_bright || decide ((7 : ℚ) / 10 ≤ x.s)) := by
    intro x
    cases hbr : x.is_bright <;>
      simp [skillPixelOk, hbr, ← decide_not, not_lt]
  refine ⟨hchar, ?_, ?_⟩
  · intro hsvI w h xs mind maxd idx hvis
    have := findCircularAux_visited_admissible hsvI w h xs mind maxd idx hvis
    rw [hchar] at this
    rcases Bool.or_eq_true _ _ |>.mp this with hb | hs
    · exact Or.inl hb
    · exact Or.inr (of_decide_eq_true hs)
  · intro image p hp
    exact ⟨(seedList_mem_bounds _ _ _ p hp).1, (seedList_mem_bounds _ _ _ p hp).2.1⟩

/-- C5 counterexample: the colour (10,3,3) has saturation exactly 0.7 and is
not bright, so under the claim's strict predicate (`s > 0.7`) it could not
participate in any candidate region; yet the scan of a 1×1 image of that
colour admits it as a seed and marks it visited. -/
theorem c5_strict_saturation_cx :
    (findCircularAux [Rgb.to_hsv ⟨10, 3, 3⟩] 1 1 (1 * 2 / 3) 40 120).visited 0 =
      true ∧
    (Rgb.to_hsv ⟨10, 3, 3⟩).is_bright = false ∧
    ¬ ((7 : ℚ) / 10 < (Rgb.to_hsv ⟨10, 3, 3⟩).s) ∧
    (Rgb.to_hsv ⟨10, 3, 3⟩).s = 7 / 10 :=
  ⟨by with_unfolding_all rfl, by with_unfolding_all rfl,
   of_decide_eq_true (by with_unfolding_all rfl),
   of_decide_eq_true (by with_unfolding_all rfl)⟩

/-- Witness for C5 at a concrete image. -/
theorem c5_skill_admissibility_witness :
    ((findCircularAux [Rgb.to_hsv ⟨255, 255, 255⟩] 1 1 0 40 120).visited 0 =
      true) ∧
    ((Rgb.to_hsv ⟨255, 255, 255⟩).is_bright = true ∨
      (7 : ℚ) / 10 ≤ (Rgb.to_hsv ⟨255, 255, 255⟩).s) ∧
    ((0, 0) ∈ seedList (ImageData.mk 1 1 [⟨255, 255, 255⟩]).width
      (ImageData.mk 1 1 [⟨255, 255, 255⟩]).height
      ((ImageData.mk 1 1 [⟨255, 255, 255⟩]).width * 2 / 3) →
      (ImageData.mk 1 1 [⟨255, 255, 255⟩]).width * 2 / 3 ≤ 0 ∧
        (0 : Nat) < (ImageData.mk 1 1 [⟨255, 255, 255⟩]).width) :=
  ⟨by with_unfolding_all rfl,
   c5_skill_admissibility.2.1 [Rgb.to_hsv ⟨255, 255, 255⟩] 1 1 0 40 120 0
     (by with_unfolding_all rfl),
   fun hp => c5_skill_admissibility.2.2 (ImageData.mk 1 1 [⟨255, 255, 255⟩])
     (0, 0) hp⟩

/-- The leftward run count never exceeds the column index. -/
theorem countLeft_le (bd : Board) (row color : Nat) :
    ∀ col, countLeft bd row color col ≤ col := by
  intro col
  induction col with
  | zero => simp [countLeft]
  | succ c ih =>
    simp only [countLeft]
    split
    · omega
    · omega

/-- All cells covered by the leftward run count have the given colour. -/
theorem countLeft_all (bd : Board) (row color : Nat) :
    ∀ col j, col - countLeft bd row color col ≤ j → j < col →
      bd.cell row j = color := by
  intro col
  induction col with
  | zero => intro j _ hj; omega
  | succ c ih =>
    intro j hj1 hj2
    by_cases hcell : bd.cell row c = color
    · simp only [countLeft, if_pos hcell] at hj1
      rcases Nat.lt_succ_iff_lt_or_eq.mp hj2 with hlt | rfl
      · exact ih j (by have := countLeft_le bd row color c; omega) hlt
      · exact hcell
    · simp only [countLeft, if_neg hcell] at hj1
      omega

/-- The leftward run count is maximal: the run cannot be extended left. -/
theorem countLeft_maximal (bd : Board) (row color : Nat) :
    ∀ col, col - countLeft bd row color col = 0 ∨
      bd.cell row (col - countLeft bd row color col - 1) ≠ color := by
  intro col
  induction col with
  | zero => exact Or.inl rfl
  | succ c ih =>
    by_cases hcell : bd.cell row c = color
    · simp only [countLeft, if_pos hcell]
      have : c + 1 - (countLeft bd row color c + 1) = c - countLeft bd row color c := by
        omega
      rw [this]
      exact ih
    · simp only [countLeft, if_neg hcell]
      right
      simpa using hcell

/-- The rightward run count stays inside the board. -/
theorem countRightAux_bound (bd : Board) (row color : Nat) :
    ∀ fuel r, r < bd.cols → r + countRightAux bd row color fuel r < bd.cols := by
  intro fuel
  induction fuel with
  | zero => intro r hr; simpa [countRightAux] using hr
  | succ n ih =>
    intro r hr
    simp only [countRightAux]
    split
    · rename_i hcond
      have := ih (r + 1) hcond.1
      omega
    · omega

/-- All cells covered by the rightward run count have the given colour. -/
theorem countRightAux_all (bd : Board) (row color : Nat) :
    ∀ fuel r j, r < j → j ≤ r + countRightAux bd row color fuel r →
      bd.cell row j = color := by
  intro fuel
  induction fuel with
  | zero => intro r j h1 h2; simp [countRightAux] at h2; omega
  | succ n ih =>
    intro r j h1 h2
    simp only [countRightAux] at h2
    split at h2
    · rename_i hcond
      rcases Nat.lt_or_ge r (j - 1) with hlt | hge
      · exact ih (r + 1) j (by omega) (by omega)
      · have : j = r + 1 := by omega
        rw [this]
        exact hcond.2
    · omega

/-- The rightward run count is maximal: the run cannot be extended right. -/
theorem countRightAux_exit (bd : Board) (row color : Nat) :
    ∀ fuel r, bd.cols ≤ r + fuel + 1 →
      ¬ (r + countRightAux bd row color fuel r + 1 < bd.cols ∧
         bd.cell row (r + countRightAux bd row color fuel r + 1) = color) := by
  intro fuel
  induction fuel with
  | zero =>
    intro r hr
    simp only [countRightAux]
    rintro ⟨h1, -⟩
    omega
  | succ n ih =>
    intro r hr
    simp only [countRightAux]
    split
    · rename_i hcond
      have := ih (r + 1) (by omega)
      intro hcontra
      exact this ⟨by omega, by
        have : r + 1 + countRightAux bd row color n (r + 1) + 1 =
            r + (countRightAux bd row color n (r + 1) + 1) + 1 := by omega
        rw [this]
        exact hcontra.2⟩
    · rename_i hcond
      rintro ⟨h1, h2⟩
      exact hcond ⟨by omega, by simpa using h2⟩

/-- The upward run count never exceeds the row index. -/
theorem countUp_le (bd : Board) (col color : Nat) :
    ∀ row, countUp bd col color row ≤ row := by
  intro row
  induction row with
  | zero => simp [countUp]
  | succ c ih =>
    simp only [countUp]
    split
    · omega
    · omega

/-- All cells covered by the upward run count have the given colour. -/
theorem countUp_all (bd : Board) (col color : Nat) :
    ∀ row j, row - countUp bd col color row ≤ j → j < row →
      bd.cell j col = color := by
  intro row
  induction row with
  | zero => intro j _ hj; omega
  | succ c ih =>
    intro j hj1 hj2
    by_cases hcell : bd.cell c col = color
    · simp only [countUp, if_pos hcell] at hj1
      rcases Nat.lt_succ_iff_lt_or_eq.mp hj2 with hlt | rfl
      · exact ih j (by have := countUp_le bd col color c; omega) hlt
      · exact hcell
    · simp only [countUp, if_neg hcell] at hj1
      omega

/-- The upward run count is maximal. -/
theorem countUp_maximal (bd : Board) (col color : Nat) :
    ∀ row, row - countUp bd col color row = 0 ∨
      bd.cell (row - countUp bd col color row - 1) col ≠ color := by
  intro row
  induction row with
  | zero => exact Or.inl rfl
  | succ c ih =>
    by_cases hcell : bd.cell c col = color
    · simp only [countUp, if_pos hcell]
      have : c + 1 - (countUp bd col color c + 1) = c - countUp bd col color c := by
        omega
      rw [this]
      exact ih
    · simp only [countUp, if_neg hcell]
      right
      simpa using hcell

/-- The downward run count stays inside the board. -/
theorem countDownAux_bound (bd : Board) (col color : Nat) :
    ∀ fuel r, r < bd.rows → r + countDownAux bd col color fuel r < bd.rows := by
  intro fuel
  induction fuel with
  | zero => intro r hr; simpa [countDownAux] using hr
  | succ n ih =>
    intro r hr
    simp only [countDownAux]
    split
    · rename_i hcond
      have := ih (r + 1) hcond.1
      omega
    · omega

/-- All cells covered by the downward run count have the given colour. -/
theorem countDownAux_all (bd : Board) (col color : Nat) :
    ∀ fuel r j, r < j → j ≤ r + countDownAux bd col color fuel r →
      bd.cell j col = color := by
  intro fuel
  induction fuel with
  | zero => intro r j h1 h2; simp [countDownAux] at h2; omega
  | succ n ih =>
    intro r j h1 h2
    simp only [countDownAux] at h2
    split at h2
    · rename_i hcond
      rcases Nat.lt_or_ge r (j - 1) with hlt | hge
      · exact ih (r + 1) j (by omega) (by omega)
      · have : j = r + 1 := by omega
        rw [this]
        exact hcond.2
    · omega

/-- The downward run count is maximal. -/
theorem countDownAux_exit (bd : Board) (col color : Nat) :
    ∀ fuel r, bd.rows ≤ r + fuel + 1 →
      ¬ (r + countDownAux bd col color fuel r + 1 < bd.rows ∧
         bd.cell (r + countDownAux bd col color fuel r + 1) col = color) := by
  intro fuel
  induction fuel with
  | zero =>
    intro r hr
    simp only [countDownAux]
    rintro ⟨h1, -⟩
    omega
  | succ n ih =>
    intro r hr
    simp only [countDownAux]
    split
    · rename_i hcond
      have := ih (r + 1) (by omega)
      intro hcontra
      exact this ⟨by omega, by
        have : r + 1 + countDownAux bd col color n (r + 1) + 1 =
            r + (countDownAux bd col color n (r + 1) + 1) + 1 := by omega
        rw [this]
        exact hcontra.2⟩
    · rename_i hcond
      rintro ⟨h1, h2⟩
      exact hcond ⟨by omega, by simpa using h2⟩

/-- The `h_count` computed by `evaluate_move` is the maximal horizontal run
length through the cell. -/
theorem hCount_isMaxRunH (bd : Board) (row col : Nat) (hcol : col < bd.cols) :
    IsMaxRunH bd row col
      (1 + countLeft bd row (bd.cell row col) col +
        countRight bd row (bd.cell row col) col) := by
  set color := bd.cell row col with hcolor
  set cl := countLeft bd row color col with hcl
  set cr := countRight bd row color col with hcr
  have hcreq : cr = countRightAux bd row color bd.cols col := rfl
  have hclle : cl ≤ col := countLeft_le bd row color col
  have hcrb : col + cr < bd.cols := countRightAux_bound bd row color bd.cols col hcol
  refine ⟨col - cl, col + cr, by omega, by omega, hcrb, by omega, ?_, ?_, ?_⟩
  · intro j hj1 hj2
    rcases Nat.lt_trichotomy j col with hlt | rfl | hgt
    · exact countLeft_all bd row color col j hj1 hlt
    · rfl
    · exact countRightAux_all bd row color bd.cols col j hgt hj2
  · exact countLeft_maximal bd row color col
  · have hexit := countRightAux_exit bd row color bd.cols col (by omega)
    by_cases hend : col + cr + 1 = bd.cols
    · exact Or.inl hend
    · right
      intro hcontra
      exact hexit ⟨by omega, hcontra⟩

/-- The `v_count` computed by `evaluate_move` is the maximal vertical run
length through the cell. -/
theorem vCount_isMaxRunV (bd : Board) (row col : Nat) (hrow : row < bd.rows) :
    IsMaxRunV bd row col
      (1 + countUp bd col (bd.cell row col) row +
        countDown bd col (bd.cell row col) row) := by
  set color := bd.cell row col with hcolor
  set cu := countUp bd col color row with hcu
  set cd := countDown bd col color row with hcd
  have hcdeq : cd = countDownAux bd col color bd.rows row := rfl
  have hcule : cu ≤ row := countUp_le bd col color row
  have hcdb : row + cd < bd.rows := countDownAux_bound bd col color bd.rows row hrow
  refine ⟨row - cu, row + cd, by omega, by omega, hcdb, by omega, ?_, ?_, ?_⟩
  · intro j hj1 hj2
    rcases Nat.lt_trichotomy j row with hlt | rfl | hgt
    · exact countUp_all bd col color row j hj1 hlt
    · rfl
    · exact countDownAux_all bd col color bd.rows row j hgt hj2
  · exact countUp_maximal bd col color row
  · have hexit := countDownAux_exit bd col color bd.rows row (by omega)
    by_cases hend : row + cd + 1 = bd.rows
    · exact Or.inl hend
    · right
      intro hcontra
      exact hexit ⟨by omega, hcontra⟩

/-- A maximal run dominates every same-coloured interval through the cell. -/
theorem IsMaxRunH_ge (bd : Board) (row col n : Nat)
    (hmax : IsMaxRunH bd row col n) :
    ∀ a e, a ≤ col → col ≤ e → e < bd.cols →
      (∀ j, a ≤ j → j ≤ e → bd.cell row j = bd.cell row col) →
      e + 1 - a ≤ n := by
  obtain ⟨a0, e0, ha0, he0, he0c, hn, hall0, hleft, hright⟩ := hmax
  intro a e ha he hec hall
  have haa : a0 ≤ a := by
    by_contra hcon
    push_neg at hcon
    have h1 : a ≤ a0 - 1 := by omega
    have h2 : a0 - 1 ≤ e := by omega
    have := hall (a0 - 1) h1 h2
    rcases hleft with h0 | hne
    · omega
    · exact hne this
  have hee : e ≤ e0 := by
    by_contra hcon
    push_neg at hcon
    have h1 : a ≤ e0 + 1 := by omega
    have h2 : e0 + 1 ≤ e := by omega
    have := hall (e0 + 1) h1 h2
    rcases hright with h0 | hne
    · omega
    · exact hne this
  omega

/-- A maximal vertical run dominates every same-coloured interval through the
cell. -/
theorem IsMaxRunV_ge (bd : Board) (row col n : Nat)
    (hmax : IsMaxRunV bd row col n) :
    ∀ a e, a ≤ row → row ≤ e → e < bd.rows →
      (∀ j, a ≤ j → j ≤ e → bd.cell j col = bd.cell row col) →
      e + 1 - a ≤ n := by
  obtain ⟨a0, e0, ha0, he0, he0c, hn, hall0, hleft, hright⟩ := hmax
  intro a e ha he hec hall
  have haa : a0 ≤ a := by
    by_contra hcon
    push_neg at hcon
    have := hall (a0 - 1) (by omega) (by omega)
    rcases hleft with h0 | hne
    · omega
    · exact hne this
  have hee : e ≤ e0 := by
    by_contra hcon
    push_neg at hcon
    have := hall (e0 + 1) (by omega) (by omega)
    rcases hright with h0 | hne
    · omega
    · exact hne this
  omega

/-- The endpoint contribution of `evaluate_move` realises the maximal run
lengths: its eliminate count and special flag are determined by the maximal
horizontal and vertical runs through the endpoint. -/
theorem posContrib_spec (bd : Board) (row col : Nat) (hrow : row < bd.rows)
    (hcol : col < bd.cols) (hnz : bd.cell row col ≠ 0) :
    ∃ hn vn, IsMaxRunH bd row col hn ∧ IsMaxRunV bd row col vn ∧
      (posContrib bd row col).1 =
        (if 3 ≤ hn then hn else 0) + (if 3 ≤ vn then vn else 0) ∧
      ((posContrib bd row col).2 = true ↔
        (4 ≤ hn ∨ 4 ≤ vn ∨ (3 ≤ hn ∧ 3 ≤ vn))) := by
  refine ⟨1 + countLeft bd row (bd.cell row col) col +
      countRight bd row (bd.cell row col) col,
    1 + countUp bd col (bd.cell row col) row +
      countDown bd col (bd.cell row col) row,
    hCount_isMaxRunH bd row col hcol, vCount_isMaxRunV bd row col hrow, ?_, ?_⟩
  · simp only [posContrib, if_neg hnz]
  · simp only [posContrib, if_neg hnz]
    simp only [Bool.or_eq_true, Bool.and_eq_true, decide_eq_true_eq]
    tauto

/-- The participation criterion matches the eliminate counter: the endpoint
contributes at least 3 iff it lies on a run of length at least 3. -/
theorem hasRun3_iff_contrib (bd : Board) (row col : Nat) (hrow : row < bd.rows)
    (hcol : col < bd.cols) (hnz : bd.cell row col ≠ 0) :
    HasRun3 bd row col ↔ 3 ≤ (posContrib bd row col).1 := by
  obtain ⟨hn, vn, hmaxH, hmaxV, hcontrib, -⟩ :=
    posContrib_spec bd row col hrow hcol hnz
  rw [hcontrib]
  constructor
  · rintro (⟨a, e, ha, he, hec, hlen, hall⟩ | ⟨a, e, ha, he, hec, hlen, hall⟩)
    · have := IsMaxRunH_ge bd row col hn hmaxH a e ha he hec hall
      have h3 : 3 ≤ hn := by omega
      rw [if_pos h3]
      omega
    · have := IsMaxRunV_ge bd row col vn hmaxV a e ha he hec hall
      have h3 : 3 ≤ vn := by omega
      rw [if_pos h3]
      omega
  · intro h3
    by_cases hh : 3 ≤ hn
    · left
      obtain ⟨a, e, ha, he, hec, hlen, hall, -, -⟩ := hmaxH
      exact ⟨a, e, ha, he, hec, by omega, hall⟩
    · right
      rw [if_neg hh] at h3
      by_cases hv : 3 ≤ vn
      · obtain ⟨a, e, ha, he, hec, hlen, hall, -, -⟩ := hmaxV
        exact ⟨a, e, ha, he, hec, by omega, hall⟩
      · rw [if_neg hv] at h3
        omega

/-- Swapping writes the second cell's old value into the first position. -/
theorem swapCells_fst (bd : Board) (r1 c1 r2 c2 : Nat) :
    (swapCells bd r1 c1 r2 c2).cell r1 c1 = bd.cell r2 c2 := by
  simp [swapCells]

/-- Swapping writes the first cell's old value into the second position. -/
theorem swapCells_snd (bd : Board) (r1 c1 r2 c2 : Nat)
    (hne : ¬(r2 = r1 ∧ c2 = c1)) :
    (swapCells bd r1 c1 r2 c2).cell r2 c2 = bd.cell r1 c1 := by
  simp [swapCells, hne]

/-- Membership characterisation of the horizontal swap scan. -/
theorem mem_hSwapMoves (bd : Board) (mv : EliminateMove) :
    mv ∈ hSwapMoves bd ↔
      ∃ row col, row < bd.rows ∧ col < bd.cols - 1 ∧
        bd.cell row col ≠ bd.cell row (col + 1) ∧ bd.cell row col ≠ 0 ∧
        bd.cell row (col + 1) ≠ 0 ∧
        ∃ mv0, evaluate_move (swapCells bd row col row (col + 1)) row col row
            (col + 1) = some mv0 ∧
          mv = { mv0 with from_row := row, from_col := col, to_row := row,
                          to_col := col + 1 } := by
  simp only [hSwapMoves, List.mem_flatMap, List.mem_filterMap, List.mem_range]
  constructor
  · rintro ⟨row, hrow, col, hcol, hopt⟩
    split at hopt
    · rename_i hguard
      rw [Option.map_eq_some'] at hopt
      obtain ⟨mv0, heval, hmv⟩ := hopt
      exact ⟨row, col, hrow, hcol, hguard.1, hguard.2.1, hguard.2.2, mv0,
        heval, hmv.symm⟩
    · exact absurd hopt (by simp)
  · rintro ⟨row, col, hrow, hcol, hne, hz1, hz2, mv0, heval, rfl⟩
    refine ⟨row, hrow, col, hcol, ?_⟩
    rw [if_pos ⟨hne, hz1, hz2⟩, heval]
    rfl

/-- Membership characterisation of the vertical swap scan. -/
theorem mem_vSwapMoves (bd : Board) (mv : EliminateMove) :
    mv ∈ vSwapMoves bd ↔
      ∃ row col, row < bd.rows - 1 ∧ col < bd.cols ∧
        bd.cell row col ≠ bd.cell (row + 1) col ∧ bd.cell row col ≠ 0 ∧
        bd.cell (row + 1) col ≠ 0 ∧
        ∃ mv0, evaluate_move (swapCells bd row col (row + 1) col) row col
            (row + 1) col = some mv0 ∧
          mv = { mv0 with from_row := row, from_col := col, to_row := row + 1,
                          to_col := col } := by
  simp only [vSwapMoves, List.mem_flatMap, List.mem_filterMap, List.mem_range]
  constructor
  · rintro ⟨row, hrow, col, hcol, hopt⟩
    split at hopt
    · rename_i hguard
      rw [Option.map_eq_some'] at hopt
      obtain ⟨mv0, heval, hmv⟩ := hopt
      exact ⟨row, col, hrow, hcol, hguard.1, hguard.2.1, hguard.2.2, mv0,
        heval, hmv.symm⟩
    · exact absurd hopt (by simp)
  · rintro ⟨row, col, hrow, hcol, hne, hz1, hz2, mv0, heval, rfl⟩
    refine ⟨row, hrow, col, hcol, ?_⟩
    rw [if_pos ⟨hne, hz1, hz2⟩, heval]
    rfl

/-- An endpoint contribution is either zero or at least 3. -/
theorem posContrib_dichotomy (bd : Board) (row col : Nat) :
    (posContrib bd row col).1 = 0 ∨ 3 ≤ (posContrib bd row col).1 := by
  simp only [posContrib]
  split
  · exact Or.inl rfl
  · split_ifs <;> omega

/-- The outcome of `evaluate_move`: a move is produced iff the summed
endpoint contributions reach 3, and its fields are determined by them. -/
theorem evaluate_move_eq (bd : Board) (r1 c1 r2 c2 : Nat) :
    evaluate_move bd r1 c1 r2 c2 =
      (if 3 ≤ (posContrib bd r1 c1).1 + (posContrib bd r2 c2).1 then
        some ⟨0, 0, 0, 0,
          (((posContrib bd r1 c1).1 + (posContrib bd r2 c2).1 : Nat) : Int) * 10 +
            (if ((posContrib bd r1 c1).2 || (posContrib bd r2 c2).2) then 50 else 0),
          (posContrib bd r1 c1).1 + (posContrib bd r2 c2).1,
          (posContrib bd r1 c1).2 || (posContrib bd r2 c2).2⟩
      else none) := rfl

set_option maxHeartbeats 1600000 in
/-- C3: every move returned by `find_all_moves` records as `eliminates` the
sum over both swapped endpoints (on the post-swap board) of the maximal
horizontal and vertical run lengths through the endpoint that are ≥ 3; its
special flag is set iff some contributing run has length ≥ 4 or one endpoint
carries both a horizontal and a vertical run ≥ 3; its score is
`10·eliminates` plus 50 for a special; and a swap of adjacent non-zero
unequal cells is emitted iff one of its endpoints lies on a run of length
≥ 3 of the post-swap board. -/
theorem c3_find_all_moves (bd : Board) :
    (∀ mv ∈ find_all_moves bd,
      ∃ r1 c1 r2 c2,
        mv.from_row = r1 ∧ mv.from_col = c1 ∧ mv.to_row = r2 ∧
        mv.to_col = c2 ∧
        ((r2 = r1 ∧ c2 = c1 + 1) ∨ (r2 = r1 + 1 ∧ c2 = c1)) ∧
        bd.cell r1 c1 ≠ bd.cell r2 c2 ∧ bd.cell r1 c1 ≠ 0 ∧
        bd.cell r2 c2 ≠ 0 ∧
        ∃ h1 v1 h2 v2,
          IsMaxRunH (swapCells bd r1 c1 r2 c2) r1 c1 h1 ∧
          IsMaxRunV (swapCells bd r1 c1 r2 c2) r1 c1 v1 ∧
          IsMaxRunH (swapCells bd r1 c1 r2 c2) r2 c2 h2 ∧
          IsMaxRunV (swapCells bd r1 c1 r2 c2) r2 c2 v2 ∧
          mv.eliminates =
            ((if 3 ≤ h1 then h1 else 0) + (if 3 ≤ v1 then v1 else 0)) +
            ((if 3 ≤ h2 then h2 else 0) + (if 3 ≤ v2 then v2 else 0)) ∧
          (mv.creates_special = true ↔
            (4 ≤ h1 ∨ 4 ≤ v1 ∨ (3 ≤ h1 ∧ 3 ≤ v1) ∨ 4 ≤ h2 ∨ 4 ≤ v2 ∨
             (3 ≤ h2 ∧ 3 ≤ v2))) ∧
          mv.score = (mv.eliminates : Int) * 10 +
            (if mv.creates_special = true then 50 else 0)) ∧
    (∀ row col, row < bd.rows → col + 1 < bd.cols →
      bd.cell row col ≠ bd.cell row (col + 1) → bd.cell row col ≠ 0 →
      bd.cell row (col + 1) ≠ 0 →
      ((∃ mv ∈ find_all_moves bd, mv.from_row = row ∧ mv.from_col = col ∧
          mv.to_row = row ∧ mv.to_col = col + 1) ↔
        (HasRun3 (swapCells bd row col row (col + 1)) row col ∨
         HasRun3 (swapCells bd row col row (col + 1)) row (col + 1)))) ∧
    (∀ row col, row + 1 < bd.rows → col < bd.cols →
      bd.cell row col ≠ bd.cell (row + 1) col → bd.cell row col ≠ 0 →
      bd.cell (row + 1) col ≠ 0 →
      ((∃ mv ∈ find_all_moves bd, mv.from_row = row ∧ mv.from_col = col ∧
          mv.to_row = row + 1 ∧ mv.to_col = col) ↔
        (HasRun3 (swapCells bd row col (row + 1) col) row col ∨
         HasRun3 (swapCells bd row col (row + 1) col) (row + 1) col))) := by
  refine ⟨?_, ?_, ?_⟩
  · intro mv hmv
    simp only [find_all_moves] at hmv
    split at hmv
    · exact absurd hmv (by simp)
    · rcases List.mem_append.mp hmv with hh | hv
      · obtain ⟨row, col, hrow, hcol, hne, hz1, hz2, mv0, heval, rfl⟩ :=
          (mem_hSwapMoves bd mv).mp hh
        have hcols : col + 1 < bd.cols := by omega
        have hz1' : (swapCells bd row col row (col + 1)).cell row col ≠ 0 := by
          rw [swapCells_fst]; exact hz2
        have hz2' : (swapCells bd row col row (col + 1)).cell row (col + 1) ≠ 0 := by
          rw [swapCells_snd bd row col row (col + 1) (by rintro ⟨-, hc⟩; omega)]
          exact hz1
        obtain ⟨h1, v1, hm1, hn1, hc1, hs1⟩ :=
          posContrib_spec (swapCells bd row col row (col + 1)) row col hrow
            (Nat.lt_of_succ_lt hcols) hz1'
        obtain ⟨h2, v2, hm2, hn2, hc2, hs2⟩ :=
          posContrib_spec (swapCells bd row col row (col + 1)) row (col + 1)
            hrow hcols hz2'
        rw [evaluate_move_eq] at heval
        split at heval
        · rename_i h3
          rw [Option.some_inj] at heval
          subst heval
          refine ⟨row, col, row, col + 1, rfl, rfl, rfl, rfl,
            Or.inl ⟨rfl, rfl⟩, hne, hz1, hz2, h1, v1, h2, v2, hm1, hn1, hm2,
            hn2, ?_, ?_, rfl⟩
          · dsimp only
            rw [← hc1, ← hc2]
          · dsimp only
            rw [Bool.or_eq_true, hs1, hs2]
            omega
        · exact absurd heval (by simp)
      · obtain ⟨row, col, hrow, hcol, hne, hz1, hz2, mv0, heval, rfl⟩ :=
          (mem_vSwapMoves bd mv).mp hv
        have hrows : row + 1 < bd.rows := by omega
        have hz1' : (swapCells bd row col (row + 1) col).cell row col ≠ 0 := by
          rw [swapCells_fst]; exact hz2
        have hz2' : (swapCells bd row col (row + 1) col).cell (row + 1) col ≠ 0 := by
          rw [swapCells_snd bd row col (row + 1) col (by rintro ⟨hr, -⟩; omega)]
          exact hz1
        obtain ⟨h1, v1, hm1, hn1, hc1, hs1⟩ :=
          posContrib_spec (swapCells bd row col (row + 1) col) row col
            (Nat.lt_of_succ_lt hrows) hcol hz1'
        obtain ⟨h2, v2, hm2, hn2, hc2, hs2⟩ :=
          posContrib_spec (swapCells bd row col (row + 1) col) (row + 1) col
            hrows hcol hz2'
        rw [evaluate_move_eq] at heval
        split at heval
        · rename_i h3
          rw [Option.some_inj] at heval
          subst heval
          refine ⟨row, col, row + 1, col, rfl, rfl, rfl, rfl,
            Or.inr ⟨rfl, rfl⟩, hne, hz1, hz2, h1, v1, h2, v2, hm1, hn1, hm2,
            hn2, ?_, ?_, rfl⟩
          · dsimp only
            rw [← hc1, ← hc2]
          · dsimp only
            rw [Bool.or_eq_true, hs1, hs2]
            omega
        · exact absurd heval (by simp)
  · intro row col hrow hcols hne hz1 hz2
    have hz1' : (swapCells bd row col row (col + 1)).cell row col ≠ 0 := by
      rw [swapCells_fst]; exact hz2
    have hz2' : (swapCells bd row col row (col + 1)).cell row (col + 1) ≠ 0 := by
      rw [swapCells_snd bd row col row (col + 1) (by rintro ⟨-, hc⟩; omega)]
      exact hz1
    constructor
    · rintro ⟨mv, hmv, hfr, hfc, htr, htc⟩
      simp only [find_all_moves] at hmv
      split at hmv
      · exact absurd hmv (by simp)
      · rcases List.mem_append.mp hmv with hh | hv
        · obtain ⟨row', col', hrow', hcol', hne', hz1n, hz2n, mv0, heval, rfl⟩ :=
            (mem_hSwapMoves bd mv).mp hh
          dsimp only at hfr hfc
          subst hfr
          subst hfc
          rw [evaluate_move_eq] at heval
          split at heval
          · rename_i h3
            rcases posContrib_dichotomy (swapCells bd row' col' row' (col' + 1))
                row' col' with ha | ha
            · rcases posContrib_dichotomy (swapCells bd row' col' row' (col' + 1))
                  row' (col' + 1) with hb | hb
              · omega
              · exact Or.inr ((hasRun3_iff_contrib (swapCells bd row' col' row' (col' + 1)) row' (col' + 1) hrow hcols
                  hz2').mpr hb)
            · exact Or.inl ((hasRun3_iff_contrib (swapCells bd row' col' row' (col' + 1)) row' col' hrow
                (Nat.lt_of_succ_lt hcols) hz1').mpr ha)
          · exact absurd heval (by simp)
        · obtain ⟨row', col', hrow', hcol', hne', hz1n, hz2n, mv0, heval, rfl⟩ :=
            (mem_vSwapMoves bd mv).mp hv
          dsimp only at hfr htr
          omega
    · intro hrun
      have h3 : 3 ≤ (posContrib (swapCells bd row col row (col + 1)) row col).1 +
          (posContrib (swapCells bd row col row (col + 1)) row (col + 1)).1 := by
        rcases hrun with hr | hr
        · have := (hasRun3_iff_contrib (swapCells bd row col row (col + 1)) row col hrow
            (Nat.lt_of_succ_lt hcols) hz1').mp hr
          omega
        · have := (hasRun3_iff_contrib (swapCells bd row col row (col + 1)) row (col + 1) hrow hcols hz2').mp hr
          omega
      have hmem := (mem_hSwapMoves bd _).mpr ⟨row, col, hrow, by omega, hne,
        hz1, hz2, _, by rw [evaluate_move_eq, if_pos h3], rfl⟩
      exact ⟨_, by
        simp only [find_all_moves]
        rw [if_neg (by omega)]
        exact List.mem_append.mpr (Or.inl hmem), rfl, rfl, rfl, rfl⟩
  · intro row col hrows hcol hne hz1 hz2
    have hz1' : (swapCells bd row col (row + 1) col).cell row col ≠ 0 := by
      rw [swapCells_fst]; exact hz2
    have hz2' : (swapCells bd row col (row + 1) col).cell (row + 1) col ≠ 0 := by
      rw [swapCells_snd bd row col (row + 1) col (by rintro ⟨hr, -⟩; omega)]
      exact hz1
    constructor
    · rintro ⟨mv, hmv, hfr, hfc, htr, htc⟩
      simp only [find_all_moves] at hmv
      split at hmv
      · exact absurd hmv (by simp)
      · rcases List.mem_append.mp hmv with hh | hv
        · obtain ⟨row', col', hrow', hcol', hne', hz1n, hz2n, mv0, heval, rfl⟩ :=
            (mem_hSwapMoves bd mv).mp hh
          dsimp only at hfc htc
          omega
        · obtain ⟨row', col', hrow', hcol', hne', hz1n, hz2n, mv0, heval, rfl⟩ :=
            (mem_vSwapMoves bd mv).mp hv
          dsimp only at hfr hfc
          subst hfr
          subst hfc
          rw [evaluate_move_eq] at heval
          split at heval
          · rename_i h3
            rcases posContrib_dichotomy (swapCells bd row' col' (row' + 1) col')
                row' col' with ha | ha
            · rcases posContrib_dichotomy (swapCells bd row' col' (row' + 1) col')
                  (row' + 1) col' with hb | hb
              · omega
              · exact Or.inr ((hasRun3_iff_contrib (swapCells bd row' col' (row' + 1) col') (row' + 1) col' hrows hcol
                  hz2').mpr hb)
            · exact Or.inl ((hasRun3_iff_contrib (swapCells bd row' col' (row' + 1) col') row' col'
                (Nat.lt_of_succ_lt hrows) hcol hz1').mpr ha)
          · exact absurd heval (by simp)
    · intro hrun
      have h3 : 3 ≤ (posContrib (swapCells bd row col (row + 1) col) row col).1 +
          (posContrib (swapCells bd row col (row + 1) col) (row + 1) col).1 := by
        rcases hrun with hr | hr
        · have := (hasRun3_iff_contrib (swapCells bd row col (row + 1) col) row col
            (Nat.lt_of_succ_lt hrows) hcol hz1').mp hr
          omega
        · have := (hasRun3_iff_contrib (swapCells bd row col (row + 1) col) (row + 1) col hrows hcol hz2').mp hr
          omega
      have hmem := (mem_vSwapMoves bd _).mpr ⟨row, col, by omega, hcol, hne,
        hz1, hz2, _, by rw [evaluate_move_eq, if_pos h3], rfl⟩
      exact ⟨_, by
        simp only [find_all_moves]
        rw [if_neg (by omega)]
        exact List.mem_append.mpr (Or.inr hmem), rfl, rfl, rfl, rfl⟩

/-- Witness for C3 on the repository's sample board: the swap
`(0,1) ↔ (0,2)` satisfies the emission criterion. -/
theorem c3_find_all_moves_witness :
    0 < sampleBoard.rows ∧ 1 + 1 < sampleBoard.cols ∧
    sampleBoard.cell 0 1 ≠ sampleBoard.cell 0 (1 + 1) ∧
    sampleBoard.cell 0 1 ≠ 0 ∧ sampleBoard.cell 0 (1 + 1) ≠ 0 ∧
    ((∃ mv ∈ find_all_moves sampleBoard, mv.from_row = 0 ∧ mv.from_col = 1 ∧
        mv.to_row = 0 ∧ mv.to_col = 1 + 1) ↔
      (HasRun3 (swapCells sampleBoard 0 1 0 (1 + 1)) 0 1 ∨
       HasRun3 (swapCells sampleBoard 0 1 0 (1 + 1)) 0 (1 + 1))) :=
  ⟨by decide, by decide, by decide, by decide, by decide,
   (c3_find_all_moves sampleBoard).2.1 0 1 (by decide) (by decide) (by decide)
     (by decide) (by decide)⟩

/-- The concrete selector returns a minimal-priority entry of the list. -/
theorem selMin_spec : SelSpec selMin := by
  intro l hl
  induction l with
  | nil => exact absurd rfl hl
  | cons e es ih =>
    cases es with
    | nil =>
      refine ⟨by simp [selMin], ?_⟩
      intro x hx
      rcases List.mem_cons.mp hx with rfl | hx
      · exact le_refl _
      · exact absurd hx (by simp)
    | cons e2 es2 =>
      obtain ⟨hmem, hmin⟩ := ih (by simp)
      by_cases hle : e.2 ≤ (selMin (e2 :: es2)).2
      · refine ⟨by simp [selMin, hle], ?_⟩
        intro x hx
        simp only [selMin, if_pos hle]
        rcases List.mem_cons.mp hx with rfl | hx
        · exact le_refl _
        · exact le_trans hle (hmin x hx)
      · refine ⟨?_, ?_⟩
        · simp only [selMin, if_neg hle]
          exact List.mem_cons_of_mem _ hmem
        · intro x hx
          simp only [selMin, if_neg hle]
          rcases List.mem_cons.mp hx with rfl | hx
          · exact le_of_lt (not_le.mp hle)
          · exact hmin x hx

/-- Membership in the open list after removing a key. -/
theorem mem_eraseKey (l : List (GridPos × Int)) (k : GridPos)
    (e : GridPos × Int) : e ∈ eraseKey l k ↔ e ∈ l ∧ e.1 ≠ k := by
  simp [eraseKey, List.mem_filter]

/-- Membership in the open list after a push. -/
theorem mem_pushOpen (l : List (GridPos × Int)) (k : GridPos) (v : Int)
    (e : GridPos × Int) :
    e ∈ pushOpen l k v ↔ e = (k, v) ∨ (e ∈ l ∧ e.1 ≠ k) := by
  simp [pushOpen, mem_eraseKey]

/-- Shape of a successful path reconstruction: it starts at the queried
node, follows `came_from` links, and ends at a node with no parent. -/
theorem buildPath_spec (par : GridPos → Option GridPos) :
    ∀ (fuel : Nat) (n : GridPos) (l : List GridPos),
      buildPath par fuel n = some l →
      l.head? = some n ∧ List.Chain' (fun a b => par a = some b) l ∧
      ∃ z, l.getLast? = some z ∧ par z = none := by
  intro fuel
  induction fuel with
  | zero =>
    intro n l hbp
    rcases hp : par n with - | p
    · simp only [buildPath, hp, Option.some_inj] at hbp
      subst hbp
      exact ⟨rfl, List.chain'_singleton n, n, rfl, hp⟩
    · simp [buildPath, hp] at hbp
  | succ f ih =>
    intro n l hbp
    rcases hp : par n with - | p
    · simp only [buildPath, hp, Option.some_inj] at hbp
      subst hbp
      exact ⟨rfl, List.chain'_singleton n, n, rfl, hp⟩
    · simp only [buildPath, hp, Option.map_eq_some'] at hbp
      obtain ⟨l', hbp', rfl⟩ := hbp
      obtain ⟨hhead, hchain, z, hlast, hz⟩ := ih p l' hbp'
      refine ⟨rfl, ?_, z, ?_, hz⟩
      · rw [List.chain'_cons']
        exact ⟨fun b hb => by rw [hhead] at hb; injection hb with hb; rw [← hb]; exact hp,
          hchain⟩
      · cases l' with
        | nil => simp at hhead
        | cons x xs => rw [List.getLast?_cons_cons]; exact hlast

/-- A chain property propagates to list tails: every tail element is the
target of some chain step. -/
theorem chain'_tail_target {R : GridPos → GridPos → Prop} :
    ∀ l : List GridPos, List.Chain' R l → ∀ x ∈ l.tail, ∃ a, R a x := by
  intro l
  induction l with
  | nil => intro _ x hx; simp at hx
  | cons a t ih =>
    intro hchain x hx
    cases t with
    | nil => simp at hx
    | cons b t' =>
      rw [List.chain'_cons] at hchain
      simp only [List.tail_cons] at hx
      rcases List.mem_cons.mp hx with rfl | hx
      · exact ⟨a, hchain.1⟩
      · exact ih hchain.2 x (by simpa using hx)

/-- A pointwise property of the list members can be conjoined onto a chain
relation (on the step targets). -/
theorem chain'_and_mem {R : GridPos → GridPos → Prop}
    {B : GridPos → Prop} :
    ∀ l : List GridPos, List.Chain' R l → (∀ x ∈ l, B x) →
      List.Chain' (fun a b => R a b ∧ B b) l := by
  intro l
  induction l with
  | nil => intro _ _; exact List.chain'_nil
  | cons a t ih =>
    intro hchain hmem
    cases t with
    | nil => exact List.chain'_singleton a
    | cons b t' =>
      rw [List.chain'_cons] at hchain ⊢
      exact ⟨⟨hchain.1, hmem b (by simp)⟩,
        ih hchain.2 (fun x hx => hmem x (List.mem_cons_of_mem a hx))⟩

/-- Step costs along an edge chain are at least 1, so the path cost is
non-negative. -/
theorem pathCost_nonneg_of_chain (nbrs : GridPos → List (GridPos × Int))
    (c : GridPos → GridPos → Int)
    (Hpos : ∀ p q k, (q, k) ∈ nbrs p → 1 ≤ k)
    (Hc : ∀ p q k, (q, k) ∈ nbrs p → k = c p q) :
    ∀ q, List.Chain' (fun a b => ∃ k, (b, k) ∈ nbrs a) q →
      0 ≤ pathCost c q := by
  intro q
  induction q with
  | nil => intro _; simp [pathCost]
  | cons a t ih =>
    intro hchain
    cases t with
    | nil => simp [pathCost]
    | cons b t' =>
      rw [List.chain'_cons] at hchain
      obtain ⟨⟨k, hk⟩, hchain'⟩ := hchain
      have h1 : 1 ≤ k := Hpos a b k hk
      have h2 : k = c a b := Hc a b k hk
      have h3 := ih hchain'
      simp only [pathCost]
      omega

/-- Telescoped consistency of the heuristic along an edge chain. -/
theorem hTele (nbrs : GridPos → List (GridPos × Int))
    (c : GridPos → GridPos → Int) (h : GridPos → Int)
    (Hc : ∀ p q k, (q, k) ∈ nbrs p → k = c p q)
    (Hcons : ∀ p q k, (q, k) ∈ nbrs p → h p ≤ k + h q) :
    ∀ q u z, q.head? = some u → q.getLast? = some z →
      List.Chain' (fun a b => ∃ k, (b, k) ∈ nbrs a) q →
      h u ≤ pathCost c q + h z := by
  intro q
  induction q with
  | nil => intro u z hu _ _; simp at hu
  | cons a t ih =>
    intro u z hu hz hchain
    obtain rfl : a = u := by simpa using hu
    cases t with
    | nil =>
      obtain rfl : a = z := by simpa using hz
      simp [pathCost]
    | cons b t' =>
      rw [List.chain'_cons] at hchain
      obtain ⟨⟨k, hk⟩, hchain'⟩ := hchain
      have h1 : h a ≤ k + h b := Hcons a b k hk
      have h2 : k = c a b := Hc a b k hk
      have h3 := ih b z rfl (by rw [← hz]; exact List.getLast?_cons_cons.symm) hchain'
      simp only [pathCost]
      omega

/-- Telescoped g-score bound along a reconstructed parent chain. -/
theorem chainCost_le (nbrs : GridPos → List (GridPos × Int))
    (c : GridPos → GridPos → Int) (h : GridPos → Int) (start : GridPos)
    (st : AState) (inv : AInv nbrs h start st)
    (Hc : ∀ p q k, (q, k) ∈ nbrs p → k = c p q) :
    ∀ q u z gu gz, q.head? = some u → q.getLast? = some z →
      List.Chain' (fun a b => st.par b = some a) q →
      st.g u = some gu → st.g z = some gz →
      gu + pathCost c q ≤ gz := by
  intro q
  induction q with
  | nil => intro u z gu gz hu _ _ _ _; simp at hu
  | cons a t ih =>
    intro u z gu gz hu hz hchain hgu hgz
    obtain rfl : a = u := by simpa using hu
    cases t with
    | nil =>
      obtain rfl : a = z := by simpa using hz
      rw [hgu] at hgz
      injection hgz with hgz
      simp [pathCost, hgz]
    | cons b t' =>
      rw [List.chain'_cons] at hchain
      obtain ⟨hpar, hchain'⟩ := hchain
      obtain ⟨gu', gb, k, hgu', hgb, hk, hle⟩ := inv.parEdge b a hpar
      rw [hgu] at hgu'
      injection hgu' with hgu'
      subst hgu'
      have hkc : k = c a b := Hc a b k hk
      have := ih b z gb gz rfl
        (by rw [← hz]; exact List.getLast?_cons_cons.symm) hchain' hgb hgz
      simp only [pathCost]
      omega

/-- Effect of a g-score update during relaxation: all components of the
relaxation invariant are preserved. -/
theorem relaxUpdate (nbrs : GridPos → List (GridPos × Int))
    (h : GridPos → Int) (start cur : GridPos) (curG : Int)
    (Hpos : ∀ p q k, (q, k) ∈ nbrs p → 1 ≤ k) (hcurG0 : 0 ≤ curG)
    (st : AState) (hinv : RelaxInv nbrs h start cur curG st) (n : GridPos)
    (k : Int) (he : (n, k) ∈ nbrs cur)
    (himp : ∀ gn, st.g n = some gn → curG + k < gn) :
    RelaxInv nbrs h start cur curG
      ⟨pushOpen st.openL n (curG + k + h n),
       fun m => if m = n then some (curG + k) else st.g m,
       fun m => if m = n then some cur else st.par m⟩ := by
  have hk1 : 1 ≤ k := Hpos cur n k he
  have hne_start : n ≠ start := by
    intro heq
    have := himp 0 (by rw [heq]; exact hinv.gStart)
    omega
  have hne_cur : n ≠ cur := by
    intro heq
    have := himp curG (by rw [heq]; exact hinv.gCur)
    omega
  refine ⟨?_, ?_, ?_, ?_, ?_, ?_, ?_, ?_, ?_⟩ <;> dsimp only
  · rw [if_neg (Ne.symm hne_start)]
    exact hinv.gStart
  · rw [if_neg (Ne.symm hne_start)]
    exact hinv.parStart
  · intro m v hv
    by_cases hm : m = n
    · rw [if_pos hm] at hv
      injection hv with hv
      omega
    · rw [if_neg hm] at hv
      exact hinv.gNonneg m v hv
  · intro m p hp
    by_cases hm : m = n
    · rw [if_pos hm] at hp
      injection hp with hp
      subst hp
      subst hm
      refine ⟨curG, curG + k, k, ?_, by rw [if_pos rfl], he, le_refl _⟩
      rw [if_neg (Ne.symm hne_cur)]
      exact hinv.gCur
    · rw [if_neg hm] at hp
      obtain ⟨gp, gm, k', hgp, hgm, hk', hle⟩ := hinv.parEdge m p hp
      by_cases hpn : p = n
      · subst hpn
        have := himp gp hgp
        refine ⟨curG + k, gm, k', by rw [if_pos rfl], by rw [if_neg hm]; exact hgm,
          hk', by omega⟩
      · exact ⟨gp, gm, k', by rw [if_neg hpn]; exact hgp,
          by rw [if_neg hm]; exact hgm, hk', hle⟩
  · intro m v hv hmne
    by_cases hm : m = n
    · rw [if_pos hm]
      simp
    · rw [if_neg hm] at hv ⊢
      exact hinv.parTotal m v hv hmne
  · intro e' he'
    rcases (mem_pushOpen _ _ _ _).mp he' with rfl | ⟨hmem, hne⟩
    · exact ⟨curG + k, by rw [if_pos rfl], rfl⟩
    · obtain ⟨gn', hgn', hprio⟩ := hinv.openPrioS e' hmem
      exact ⟨gn', by rw [if_neg hne]; exact hgn', hprio⟩
  · intro m gm hmne hgm hclosed q k' hq
    have hmn : m ≠ n := by
      intro heq
      exact hclosed (curG + k + h n) ((mem_pushOpen _ _ _ _).mpr (Or.inl (by rw [heq])))
    rw [if_neg hmn] at hgm
    have hclosed' : ∀ f, (m, f) ∉ st.openL := by
      intro f hf
      exact hclosed f ((mem_pushOpen _ _ _ _).mpr (Or.inr ⟨hf, hmn⟩))
    obtain ⟨gq, hgq, hle⟩ := hinv.closedRelaxedX m gm hmne hgm hclosed' q k' hq
    by_cases hqn : q = n
    · subst hqn
      have := himp gq hgq
      exact ⟨curG + k, by rw [if_pos rfl], by omega⟩
    · exact ⟨gq, by rw [if_neg hqn]; exact hgq, hle⟩
  · rw [if_neg (Ne.symm hne_cur)]
    exact hinv.gCur
  · intro f hf
    rcases (mem_pushOpen _ _ _ _).mp hf with heq | ⟨hmem, -⟩
    · exact hne_cur (congrArg Prod.fst heq).symm
    · exact hinv.curNotOpen f hmem

/-- One relaxation step preserves the relaxation invariant, relaxes the
processed edge, and never increases a recorded g-score. -/
theorem relaxOne_step (nbrs : GridPos → List (GridPos × Int))
    (h : GridPos → Int) (start cur : GridPos) (curG : Int)
    (Hpos : ∀ p q k, (q, k) ∈ nbrs p → 1 ≤ k) (hcurG0 : 0 ≤ curG)
    (st : AState) (hinv : RelaxInv nbrs h start cur curG st)
    (e : GridPos × Int) (he : e ∈ nbrs cur) :
    RelaxInv nbrs h start cur curG (relaxOne h cur curG st e) ∧
    (∃ gq, (relaxOne h cur curG st e).g e.1 = some gq ∧ gq ≤ curG + e.2) ∧
    (∀ m gm, st.g m = some gm →
      ∃ gm', (relaxOne h cur curG st e).g m = some gm' ∧ gm' ≤ gm) := by
  obtain ⟨n, k⟩ := e
  rcases hg : st.g n with - | gn
  · have hrel : relaxOne h cur curG st (n, k) =
        ⟨pushOpen st.openL n (curG + k + h n),
         fun m => if m = n then some (curG + k) else st.g m,
         fun m => if m = n then some cur else st.par m⟩ := by
      simp [relaxOne, hg]
    rw [hrel]
    refine ⟨relaxUpdate nbrs h start cur curG Hpos hcurG0 st hinv n k he
      (fun gn' hgn' => absurd hgn' (by rw [hg]; simp)), ?_, ?_⟩
    · exact ⟨curG + k, by dsimp only; rw [if_pos rfl], le_refl _⟩
    · intro m gm hgm
      by_cases hm : m = n
      · rw [hm, hg] at hgm; cases hgm
      · exact ⟨gm, by dsimp only; rw [if_neg hm]; exact hgm, le_refl _⟩
  · by_cases hlt : curG + k < gn
    · have hrel : relaxOne h cur curG st (n, k) =
          ⟨pushOpen st.openL n (curG + k + h n),
           fun m => if m = n then some (curG + k) else st.g m,
           fun m => if m = n then some cur else st.par m⟩ := by
        simp [relaxOne, hg, hlt]
      rw [hrel]
      refine ⟨relaxUpdate nbrs h start cur curG Hpos hcurG0 st hinv n k he
        (fun gn' hgn' => by rw [hg] at hgn'; injection hgn' with hgn'; omega),
        ?_, ?_⟩
      · exact ⟨curG + k, by dsimp only; rw [if_pos rfl], le_refl _⟩
      · intro m gm hgm
        by_cases hm : m = n
        · subst hm
          rw [hg] at hgm
          injection hgm with hgm
          exact ⟨curG + k, by dsimp only; rw [if_pos rfl], by omega⟩
        · exact ⟨gm, by dsimp only; rw [if_neg hm]; exact hgm, le_refl _⟩
    · have hrel : relaxOne h cur curG st (n, k) = st := by
        simp [relaxOne, hg, hlt]
      rw [hrel]
      exact ⟨hinv, ⟨gn, hg, by omega⟩,
        fun m gm hgm => ⟨gm, hgm, le_refl _⟩⟩

/-- Folding the relaxation over the remaining neighbour list re-establishes
the full loop invariant. -/
theorem relaxFold (nbrs : GridPos → List (GridPos × Int))
    (h : GridPos → Int) (start cur : GridPos) (curG : Int)
    (Hpos : ∀ p q k, (q, k) ∈ nbrs p → 1 ≤ k) (hcurG0 : 0 ≤ curG) :
    ∀ (L done : List (GridPos × Int)) (st : AState),
      nbrs cur = done ++ L →
      RelaxInv nbrs h start cur curG st →
      (∀ e ∈ done, ∃ gq, st.g e.1 = some gq ∧ gq ≤ curG + e.2) →
      AInv nbrs h start (List.foldl (relaxOne h cur curG) st L) := by
  intro L
  induction L with
  | nil =>
    intro done st hdec hinv hdone
    simp only [List.foldl_nil]
    refine ⟨hinv.gStart, hinv.parStart, hinv.gNonneg, hinv.parEdge,
      hinv.parTotal,
      fun e he => (hinv.openPrioS e he).imp (fun gn hgn => ⟨hgn.1, Or.inl hgn.2⟩),
      ?_⟩
    intro n gn hgn hclosed q k hq
    by_cases hn : n = cur
    · subst hn
      have hgn' : gn = curG := by
        rw [hinv.gCur] at hgn
        injection hgn with hval
        exact hval.symm
      obtain ⟨gq, hgq, hle⟩ := hdone (q, k) (by
        rw [List.append_nil] at hdec
        rw [← hdec]
        exact hq)
      exact ⟨gq, hgq, by omega⟩
    · exact hinv.closedRelaxedX n gn hn hgn hclosed q k hq
  | cons e L' ih =>
    intro done st hdec hinv hdone
    simp only [List.foldl_cons]
    have he : e ∈ nbrs cur := by
      rw [hdec]
      exact List.mem_append.mpr (Or.inr (List.mem_cons_self e L'))
    obtain ⟨hinv', hrel, hmono⟩ :=
      relaxOne_step nbrs h start cur curG Hpos hcurG0 st hinv e he
    refine ih (done ++ [e]) _ (by rw [hdec]; simp) hinv' ?_
    intro e' he'
    rcases List.mem_append.mp he' with hmem | hsing
    · obtain ⟨gq, hgq, hle⟩ := hdone e' hmem
      obtain ⟨gq', hgq', hle'⟩ := hmono e'.1 gq hgq
      exact ⟨gq', hgq', le_trans hle' hle⟩
    · rw [List.mem_singleton] at hsing
      subst hsing
      exact hrel

/-- In a singleton open list any two members coincide. -/
theorem single_open_eq (st : AState) (hlen : st.openL.length = 1)
    {e1 e2 : GridPos × Int} (h1 : e1 ∈ st.openL) (h2 : e2 ∈ st.openL) :
    e1 = e2 := by
  obtain ⟨x, hx⟩ := List.length_eq_one.mp hlen
  rw [hx, List.mem_singleton] at h1 h2
  rw [h1, h2]

/-- Every node on a parent chain whose head has a recorded g-score has a
recorded g-score. -/
theorem parChain_g_defined (nbrs : GridPos → List (GridPos × Int))
    (h : GridPos → Int) (start : GridPos) (st : AState)
    (inv : AInv nbrs h start st) :
    ∀ l : List GridPos, List.Chain' (fun a b => st.par a = some b) l →
      ∀ hd, l.head? = some hd → (∃ g0, st.g hd = some g0) →
      ∀ x ∈ l, ∃ gx, st.g x = some gx := by
  intro l
  induction l with
  | nil => intro _ hd hhd _ x hx; simp at hx
  | cons a t ih =>
    intro hchain hd hhd hghd x hx
    obtain rfl : a = hd := by simpa using hhd
    rcases List.mem_cons.mp hx with rfl | hx
    · exact hghd
    · cases t with
      | nil => simp at hx
      | cons b t' =>
        rw [List.chain'_cons] at hchain
        obtain ⟨gp, gn, k, hgp, hgn, -, -⟩ := inv.parEdge a b hchain.1
        exact ih hchain.2 b rfl ⟨gp, hgp⟩ x hx

/-- Frontier argument: while the goal sits in the open list with minimal
stored priority, the recorded g-score of the goal is bounded by the cost of
every edge chain from a node with a recorded g-score to the goal. -/
theorem popMin_le (nbrs : GridPos → List (GridPos × Int))
    (c : GridPos → GridPos → Int) (h : GridPos → Int) (start goal : GridPos)
    (Hpos : ∀ p q k, (q, k) ∈ nbrs p → 1 ≤ k)
    (Hc : ∀ p q k, (q, k) ∈ nbrs p → k = c p q)
    (Hcons : ∀ p q k, (q, k) ∈ nbrs p → h p ≤ k + h q)
    (Hh0 : h goal = 0)
    (st : AState) (inv : AInv nbrs h start st) (fc : Int)
    (hgoalmem : (goal, fc) ∈ st.openL)
    (hmin : ∀ e ∈ st.openL, fc ≤ e.2) :
    ∀ q : List GridPos, ∀ u gu A, q.head? = some u → q.getLast? = some goal →
      List.Chain' (fun a b => ∃ k, (b, k) ∈ nbrs a) q →
      st.g u = some gu → gu ≤ A →
      ∃ gg, st.g goal = some gg ∧ gg ≤ A + pathCost c q := by
  intro q
  induction q with
  | nil => intro u gu A hu hz hchain hgu hA; simp at hu
  | cons a t ih =>
    intro u gu A hu hz hchain hgu hA
    obtain rfl : a = u := by simpa using hu
    by_cases hag : a = goal
    · subst hag
      refine ⟨gu, hgu, ?_⟩
      have hnn := pathCost_nonneg_of_chain nbrs c Hpos Hc _ hchain
      omega
    · cases t with
      | nil =>
        obtain rfl : a = goal := by simpa using hz
        exact absurd rfl hag
      | cons b t' =>
        have hchain2 := hchain
        rw [List.chain'_cons] at hchain2
        obtain ⟨⟨k, hk⟩, hchain'⟩ := hchain2
        by_cases hopen : ∃ f, (a, f) ∈ st.openL
        · obtain ⟨fa, hfa⟩ := hopen
          obtain ⟨ga, hga, hdisj⟩ := inv.openPrio (a, fa) hfa
          rw [hgu] at hga
          injection hga with hga
          rcases hdisj with hprio | hlen
          · obtain ⟨gg, hgg, hdisj2⟩ := inv.openPrio (goal, fc) hgoalmem
            rcases hdisj2 with hprio2 | hlen2
            · rw [Hh0] at hprio2
              have hminfa := hmin (a, fa) hfa
              have htele := hTele nbrs c h Hc Hcons (a :: b :: t') a goal rfl
                hz hchain
              rw [Hh0] at htele
              refine ⟨gg, hgg, ?_⟩
              simp only at hprio hminfa
              omega
            · have := single_open_eq st hlen2 hfa hgoalmem
              exact absurd (congrArg Prod.fst this) hag
          · have := single_open_eq st hlen hfa hgoalmem
            exact absurd (congrArg Prod.fst this) hag
        · push_neg at hopen
          obtain ⟨gb, hgb, hle⟩ := inv.closedRelaxed a gu hgu hopen b k hk
          have hkc := Hc a b k hk
          obtain ⟨gg, hgg, hfin⟩ := ih b gb (A + c a b) rfl
            (by rw [← hz]; exact List.getLast?_cons_cons.symm) hchain' hgb
            (by omega)
          refine ⟨gg, hgg, ?_⟩
          simp only [pathCost] at hfin ⊢
          omega

/-- Characterisation of the 4-connected neighbour enumeration: membership
is exactly a legal 4-connected step with unit cost. -/
theorem mem_nbrs4 (obstacles : List GridPos) (W H : Int) (p q : GridPos)
    (k : Int) :
    (q, k) ∈ nbrs4 obstacles W H p ↔ stepOk4 obstacles W H p q ∧ k = 1 := by
  simp only [nbrs4, List.mem_filterMap]
  constructor
  · rintro ⟨d, hd, hsome⟩
    dsimp only at hsome
    split_ifs at hsome with h1 h2
    cases hsome
    push_neg at h1
    refine ⟨⟨?_, ?_⟩, rfl⟩
    · show adj4 p (⟨p.x + d.1, p.y + d.2⟩ : GridPos)
      rw [adj4]
      dsimp only
      have hde : (p.x + d.1 - p.x, p.y + d.2 - p.y) = d := by
        rw [Prod.ext_iff]
        constructor <;> dsimp only <;> ring
      rw [hde]
      exact hd
    · exact ⟨h1.1, h1.2.1, h1.2.2.1, h1.2.2.2, h2⟩
  · rintro ⟨⟨hadj, hb1, hb2, hb3, hb4, hobs⟩, rfl⟩
    rw [adj4] at hadj
    refine ⟨(q.x - p.x, q.y - p.y), hadj, ?_⟩
    dsimp only
    have hn : (⟨p.x + (q.x - p.x), p.y + (q.y - p.y)⟩ : GridPos) = q := by
      rw [GridPos.mk.injEq]
      constructor <;> ring
    rw [hn, if_neg (by omega), if_neg hobs]

/-- Step costs attached to the eight direction entries. -/
theorem dirs8_cost (d : Int × Int × Int) (hd : d ∈ dirs8) :
    (d.1 ≠ 0 ∧ d.2.1 ≠ 0 → d.2.2 = 14) ∧ ((d.1 = 0 ∨ d.2.1 = 0) → d.2.2 = 10) := by
  fin_cases hd <;> norm_num

/-- Characterisation of the 8-connected neighbour enumeration: membership
is exactly a legal 8-connected step (corner rule included) with the
orthogonal/diagonal step cost. -/
theorem mem_nbrs8 (obstacles : List GridPos) (W H : Int) (p q : GridPos)
    (k : Int) :
    (q, k) ∈ nbrs8 obstacles W H p ↔
      stepOk8 obstacles W H p q ∧ k = cost8 p q := by
  simp only [nbrs8, List.mem_filterMap]
  constructor
  · rintro ⟨d, hd, hsome⟩
    dsimp only at hsome
    split_ifs at hsome with h1 h2 h3 h4
    · -- diagonal step, corners free
      cases hsome
      push_neg at h1 h4
      refine ⟨⟨⟨⟨d, hd, rfl, rfl⟩, ?_⟩,
        h1.1, h1.2.1, h1.2.2.1, h1.2.2.2, h2⟩, ?_⟩
      · intro _
        exact h4
      · rw [(dirs8_cost d hd).1 h3]
        simp only [cost8]
        split
        · rfl
        · rename_i hcon
          exact absurd ⟨by omega, by omega⟩ hcon
    · -- orthogonal step
      cases hsome
      push_neg at h1 h3
      refine ⟨⟨⟨⟨d, hd, rfl, rfl⟩, ?_⟩,
        h1.1, h1.2.1, h1.2.2.1, h1.2.2.2, h2⟩, ?_⟩
      · rintro ⟨hx, hy⟩
        exfalso
        dsimp only at hx hy
        have hd1 : d.1 ≠ 0 := by omega
        have hd2 : d.2.1 = 0 := h3 hd1
        omega
      · have h10 : d.2.2 = 10 := by
          refine (dirs8_cost d hd).2 ?_
          by_cases hz : d.1 = 0
          · exact Or.inl hz
          · exact Or.inr (h3 hz)
        rw [h10]
        simp only [cost8]
        split
        · rename_i hcon
          obtain ⟨hx, hy⟩ := hcon
          have hd1 : d.1 ≠ 0 := by omega
          have hd2 : d.2.1 = 0 := h3 hd1
          omega
        · rfl
  · rintro ⟨⟨⟨⟨d, hd, hqx, hqy⟩, hcorn⟩, hb1, hb2, hb3, hb4, hobs⟩, rfl⟩
    refine ⟨d, hd, ?_⟩
    dsimp only
    have hn : (⟨p.x + d.1, p.y + d.2.1⟩ : GridPos) = q := by
      rw [GridPos.mk.injEq]
      exact ⟨hqx.symm, hqy.symm⟩
    rw [hn, if_neg (by omega), if_neg hobs]
    by_cases hdg : d.1 ≠ 0 ∧ d.2.1 ≠ 0
    · rw [if_pos hdg]
      obtain ⟨hc1, hc2⟩ := hcorn ⟨by omega, by omega⟩
      have hrec1 : (⟨p.x + d.1, p.y⟩ : GridPos) = ⟨q.x, p.y⟩ := by rw [hqx]
      have hrec2 : (⟨p.x, p.y + d.2.1⟩ : GridPos) = ⟨p.x, q.y⟩ := by rw [hqy]
      rw [hrec1, hrec2, if_neg (by rintro (hh | hh); exacts [hc1 hh, hc2 hh])]
      have h14 : d.2.2 = 14 := (dirs8_cost d hd).1 hdg
      have hc14 : cost8 p q = 14 := by
        simp only [cost8]
        split
        · rfl
        · rename_i hcon
          exact absurd ⟨by omega, by omega⟩ hcon
      rw [h14, hc14]
    · rw [if_neg hdg]
      push_neg at hdg
      have h10 : d.2.2 = 10 := by
        refine (dirs8_cost d hd).2 ?_
        by_cases hz : d.1 = 0
        · exact Or.inl hz
        · exact Or.inr (hdg hz)
      have hc10 : cost8 p q = 10 := by
        simp only [cost8]
        split
        · rename_i hcon
          obtain ⟨hx, hy⟩ := hcon
          have hd1 : d.1 ≠ 0 := by omega
          have hd2 : d.2.1 = 0 := hdg hd1
          omega
        · rfl
      rw [h10, hc10]

/-- Soundness of the A* main loop: under the loop invariant, any successful
run (for any admissible selector, positive consistent edge costs, and a
heuristic vanishing at the goal) returns a start-to-goal edge chain whose
reported cost is the path cost and is minimal among all start-to-goal edge
chains. -/
theorem astarLoop_sound (sel : List (GridPos × Int) → GridPos × Int)
    (nbrs : GridPos → List (GridPos × Int)) (c : GridPos → GridPos → Int)
    (h : GridPos → Int) (start goal : GridPos)
    (hsel : SelSpec sel)
    (Hpos : ∀ p q k, (q, k) ∈ nbrs p → 1 ≤ k)
    (Hc : ∀ p q k, (q, k) ∈ nbrs p → k = c p q)
    (Hcons : ∀ p q k, (q, k) ∈ nbrs p → h p ≤ k + h q)
    (Hh0 : h goal = 0) :
    ∀ (fuel : Nat) (st : AState) (res : PathResult),
      AInv nbrs h start st →
      astarLoop sel nbrs h goal fuel st = some res → res.found = true →
      LoopGood nbrs c start goal res := by
  intro fuel
  induction fuel with
  | zero => intro st res _ hrun _; simp [astarLoop] at hrun
  | succ f ih =>
    intro st res inv hrun hfound
    obtain ⟨ol, gsc, pr⟩ := st
    rcases hOL : ol with - | ⟨e0, es⟩
    · subst hOL
      simp only [astarLoop] at hrun
      injection hrun with hrun
      rw [← hrun] at hfound
      simp at hfound
    · subst hOL
      simp only [astarLoop] at hrun
      rcases hse : sel (e0 :: es) with ⟨cur, fc⟩
      rw [hse] at hrun
      dsimp only at hrun
      obtain ⟨hselmem, hselmin⟩ := hsel (e0 :: es) (by simp)
      rw [hse] at hselmem
      have hselmin' : ∀ e ∈ e0 :: es, fc ≤ e.2 := by
        intro e he
        have := hselmin e he
        rw [hse] at this
        exact this
      obtain ⟨gg, hgg, -⟩ := inv.openPrio (cur, fc) hselmem
      by_cases hcg : cur = goal
      · rw [if_pos hcg] at hrun
        have hgetD : (gsc cur).getD 0 = gg := by
          rw [show (⟨e0 :: es, gsc, pr⟩ : AState).g = gsc from rfl] at hgg
          rw [hgg]
          rfl
        rw [hgetD] at hrun
        rcases hbp : buildPath pr gg.toNat cur with - | l
        · rw [hbp] at hrun
          simp at hrun
        · rw [hbp] at hrun
          dsimp only at hrun
          injection hrun with hrun
          obtain ⟨hhead, hchain, z, hlast, hpz⟩ := buildPath_spec pr gg.toNat cur l hbp
          have hgdef := parChain_g_defined nbrs h start _ inv l hchain cur hhead ⟨gg, hgg⟩
          have hzstart : z = start := by
            by_contra hne
            obtain ⟨gz, hgz⟩ := hgdef z (List.mem_of_mem_getLast? hlast)
            exact inv.parTotal z gz hgz hne hpz
          have hedge : List.Chain' (fun a b => ∃ k, (b, k) ∈ nbrs a) l.reverse := by
            refine List.chain'_reverse.mpr (List.Chain'.imp ?_ hchain)
            intro a b hab
            obtain ⟨gp, gn, k, -, -, hk, -⟩ := inv.parEdge a b hab
            exact ⟨k, hk⟩
          have hrevhead : l.reverse.head? = some start := by
            rw [List.head?_reverse, hlast, hzstart]
          have hrevlast : l.reverse.getLast? = some goal := by
            rw [List.getLast?_reverse, hhead, hcg]
          have hparchain : List.Chain'
              (fun a b => (⟨e0 :: es, gsc, pr⟩ : AState).par b = some a) l.reverse := by
            refine List.chain'_reverse.mpr (List.Chain'.imp ?_ hchain)
            intro a b hab
            exact hab
          have hge : 0 + pathCost c l.reverse ≤ gg := by
            refine chainCost_le nbrs c h start _ inv Hc l.reverse start goal 0 gg
              hrevhead hrevlast hparchain inv.gStart ?_
            rw [← hcg]
            exact hgg
          have hminq : ∀ q : List GridPos, q.head? = some start →
              q.getLast? = some goal →
              List.Chain' (fun a b => ∃ k, (b, k) ∈ nbrs a) q →
              gg ≤ pathCost c q := by
            intro q hq1 hq2 hq3
            obtain ⟨gg', hgg', hle⟩ := popMin_le nbrs c h start goal Hpos Hc Hcons Hh0
              _ inv fc (by rw [← hcg]; exact hselmem) hselmin' q start 0 0 hq1 hq2 hq3
              inv.gStart (le_refl 0)
            have hg' : gg' = gg := by
              rw [← hcg] at hgg'
              rw [hgg] at hgg'
              injection hgg' with hv
              exact hv.symm
            omega
          have hle : gg ≤ pathCost c l.reverse := hminq l.reverse hrevhead hrevlast hedge
          rw [← hrun]
          refine ⟨hrevhead, hrevlast, hedge, by dsimp only; omega, ?_⟩
          intro q hq1 hq2 hq3
          dsimp only
          exact hminq q hq1 hq2 hq3
      · rw [if_neg hcg] at hrun
        have hcurG : (gsc cur).getD 2147483647 = gg := by
          rw [show (⟨e0 :: es, gsc, pr⟩ : AState).g = gsc from rfl] at hgg
          rw [hgg]
          rfl
        rw [hcurG] at hrun
        have hgg0 : 0 ≤ gg := inv.gNonneg cur gg hgg
        have hrinv : RelaxInv nbrs h start cur gg ⟨eraseKey (e0 :: es) cur, gsc, pr⟩ := by
          refine ⟨inv.gStart, inv.parStart, inv.gNonneg, inv.parEdge, inv.parTotal,
            ?_, ?_, hgg, ?_⟩
          · intro e he
            rw [show (⟨eraseKey (e0 :: es) cur, gsc, pr⟩ : AState).openL =
              eraseKey (e0 :: es) cur from rfl, mem_eraseKey] at he
            obtain ⟨gn, hgn, hdisj⟩ := inv.openPrio e he.1
            refine ⟨gn, hgn, ?_⟩
            rcases hdisj with hp | hlen
            · exact hp
            · exact absurd (congrArg Prod.fst
                (single_open_eq ⟨e0 :: es, gsc, pr⟩ hlen he.1 hselmem)) he.2
          · intro n gn hn hgn hnopen q k hq
            refine inv.closedRelaxed n gn hgn ?_ q k hq
            intro fv hfv
            exact hnopen fv ((mem_eraseKey (e0 :: es) cur (n, fv)).mpr ⟨hfv, hn⟩)
          · intro fv hfv
            rw [show (⟨eraseKey (e0 :: es) cur, gsc, pr⟩ : AState).openL =
              eraseKey (e0 :: es) cur from rfl, mem_eraseKey] at hfv
            exact hfv.2 rfl
        have hinv' := relaxFold nbrs h start cur gg Hpos hgg0 (nbrs cur) []
          ⟨eraseKey (e0 :: es) cur, gsc, pr⟩ rfl hrinv (by simp)
        exact ih _ res hinv' hrun hfound

/-- The eight direction offsets are each in {-1, 0, 1}. -/
theorem dirs8_mem_bounds (d : Int × Int × Int) (hd : d ∈ dirs8) :
    (d.1 = 0 ∨ d.1 = 1 ∨ d.1 = -1) ∧ (d.2.1 = 0 ∨ d.2.1 = 1 ∨ d.2.1 = -1) := by
  fin_cases hd <;> norm_num

/-- The Manhattan heuristic is consistent for the 4-connected unit-cost
graph. -/
theorem nbrs4_consistent (obstacles : List GridPos) (W H : Int)
    (goal : GridPos) :
    ∀ p q k, (q, k) ∈ nbrs4 obstacles W H p →
      GridPos.manhattan_distance p goal ≤ k + GridPos.manhattan_distance q goal := by
  intro p q k hmem
  obtain ⟨⟨hadj, -⟩, rfl⟩ := (mem_nbrs4 obstacles W H p q k).mp hmem
  rw [adj4] at hadj
  simp only [dirs4, List.mem_cons, List.not_mem_nil, or_false,
    Prod.mk.injEq] at hadj
  rcases hadj with ⟨h1, h2⟩ | ⟨h1, h2⟩ | ⟨h1, h2⟩ | ⟨h1, h2⟩ <;>
    (simp only [GridPos.manhattan_distance]; omega)

/-- The scaled Chebyshev heuristic is consistent for the 8-connected
10/14-cost graph. -/
theorem nbrs8_consistent (obstacles : List GridPos) (W H : Int)
    (goal : GridPos) :
    ∀ p q k, (q, k) ∈ nbrs8 obstacles W H p →
      10 * GridPos.chebyshev p goal ≤ k + 10 * GridPos.chebyshev q goal := by
  intro p q k hmem
  obtain ⟨⟨⟨⟨d, hd, hqx, hqy⟩, -⟩, -⟩, rfl⟩ := (mem_nbrs8 obstacles W H p q k).mp hmem
  obtain ⟨hb1, hb2⟩ := dirs8_mem_bounds d hd
  simp only [GridPos.chebyshev, cost8]
  rcases hb1 with h1 | h1 | h1 <;> rcases hb2 with h2 | h2 | h2 <;>
    split <;> omega

/-- 8-connected step costs are positive. -/
theorem nbrs8_pos (obstacles : List GridPos) (W H : Int) :
    ∀ p q k, (q, k) ∈ nbrs8 obstacles W H p → 1 ≤ k := by
  intro p q k hmem
  obtain ⟨-, rfl⟩ := (mem_nbrs8 obstacles W H p q k).mp hmem
  simp only [cost8]
  split <;> omega

/-- The initial search state (start pushed with an arbitrary priority,
g-score 0 at the start, empty parent map) satisfies the loop invariant. -/
theorem initAInv (nbrs : GridPos → List (GridPos × Int)) (h : GridPos → Int)
    (start : GridPos) (pr : Int) :
    AInv nbrs h start
      ⟨[(start, pr)], fun p => if p = start then some 0 else none,
        fun _ => none⟩ := by
  refine ⟨?_, rfl, ?_, ?_, ?_, ?_, ?_⟩
  · dsimp only
    rw [if_pos rfl]
  · intro n v hv
    dsimp only at hv
    split_ifs at hv
    injection hv with hv
    omega
  · intro n p hnp
    cases hnp
  · intro n v hv hne
    dsimp only at hv
    rw [if_neg hne] at hv
    cases hv
  · intro e he
    rw [show (⟨[(start, pr)], fun p => if p = start then some 0 else none,
      fun _ => none⟩ : AState).openL = [(start, pr)] from rfl,
      List.mem_singleton] at he
    subst he
    refine ⟨0, ?_, Or.inr rfl⟩
    dsimp only
    rw [if_pos rfl]
  · intro n gn hgn hclosed q k hq
    dsimp only at hgn
    split_ifs at hgn with hns
    subst hns
    exact absurd (List.mem_singleton.mpr rfl) (hclosed pr)

/-- Path costs are non-negative for a non-negative step-cost function. -/
theorem pathCost_nonneg (c : GridPos → GridPos → Int)
    (hc : ∀ p q, 0 ≤ c p q) : ∀ l, 0 ≤ pathCost c l := by
  intro l
  induction l with
  | nil => simp [pathCost]
  | cons a t ih =>
    cases t with
    | nil => simp [pathCost]
    | cons b t' =>
      have := hc a b
      simp only [pathCost] at ih ⊢
      omega

/-- Soundness of `find_path` for every admissible selector: a successful
run is either the start-equals-goal early return or a sound and optimal
A* run on the 4-connected graph. -/
theorem findPathWith_sound (sel : List (GridPos × Int) → GridPos × Int)
    (hsel : SelSpec sel) (start goal : GridPos) (obstacles : List GridPos)
    (W H : Int) (res : PathResult)
    (hrun : findPathWith sel start goal obstacles W H = some res)
    (hfound : res.found = true) :
    (start = goal ∧ res = ⟨[start], 0, true⟩) ∨
    LoopGood (nbrs4 obstacles W H) cost4 start goal res := by
  rw [findPathWith] at hrun
  split_ifs at hrun with h1 h2
  · injection hrun with hr
    exact Or.inl ⟨h1, hr.symm⟩
  · injection hrun with hr
    rw [← hr] at hfound
    simp at hfound
  · refine Or.inr (astarLoop_sound sel (nbrs4 obstacles W H) cost4
      (fun p => p.manhattan_distance goal) start goal hsel ?_ ?_ ?_ ?_
      _ _ res (initAInv _ _ _ _) hrun hfound)
    · intro p q k hm
      obtain ⟨-, rfl⟩ := (mem_nbrs4 obstacles W H p q k).mp hm
      omega
    · intro p q k hm
      obtain ⟨-, rfl⟩ := (mem_nbrs4 obstacles W H p q k).mp hm
      rfl
    · exact nbrs4_consistent obstacles W H goal
    · simp only [GridPos.manhattan_distance]
      omega

/-- Soundness of `find_path_8dir` for every admissible selector: a
successful run is either the start-equals-goal early return or a sound and
optimal A* run on the 8-connected graph. -/
theorem findPath8With_sound (sel : List (GridPos × Int) → GridPos × Int)
    (hsel : SelSpec sel) (start goal : GridPos) (obstacles : List GridPos)
    (W H : Int) (res : PathResult)
    (hrun : findPath8With sel start goal obstacles W H = some res)
    (hfound : res.found = true) :
    (start = goal ∧ res = ⟨[start], 0, true⟩) ∨
    LoopGood (nbrs8 obstacles W H) cost8 start goal res := by
  rw [findPath8With] at hrun
  split_ifs at hrun with h1 h2
  · injection hrun with hr
    exact Or.inl ⟨h1, hr.symm⟩
  · injection hrun with hr
    rw [← hr] at hfound
    simp at hfound
  · refine Or.inr (astarLoop_sound sel (nbrs8 obstacles W H) cost8
      (fun p => 10 * p.chebyshev goal) start goal hsel
      (nbrs8_pos obstacles W H) ?_ (nbrs8_consistent obstacles W H goal) ?_
      _ _ res (initAInv _ _ _ _) hrun hfound)
    · intro p q k hm
      exact ((mem_nbrs8 obstacles W H p q k).mp hm).2
    · simp only [GridPos.chebyshev]
      omega

/-- **C1** (amended): whenever `find_path` (resp. `find_path_8dir`)
returns `found = true`, the path starts at `start`, ends at `goal`, is a
chain of legal 4-connected (resp. 8-connected, with the corner rule)
steps whose targets are in bounds and obstacle-free -- so every position
except possibly the start avoids the obstacle set -- and `total_cost` is
the sum of per-step costs (1 per step, resp. 10 orthogonal / 14
diagonal).  The original claim's full obstacle-freeness fails for the
start position, see the counterexample. -/
theorem c1_path_soundness (start goal : GridPos) (obstacles : List GridPos)
    (W H : Int) (res4 res8 : PathResult) :
    (find_path start goal obstacles W H = some res4 → res4.found = true →
      res4.path.head? = some start ∧ res4.path.getLast? = some goal ∧
      List.Chain' (stepOk4 obstacles W H) res4.path ∧
      (∀ p ∈ res4.path.tail, p ∉ obstacles) ∧
      res4.total_cost = pathCost cost4 res4.path) ∧
    (find_path_8dir start goal obstacles W H = some res8 → res8.found = true →
      res8.path.head? = some start ∧ res8.path.getLast? = some goal ∧
      List.Chain' (stepOk8 obstacles W H) res8.path ∧
      (∀ p ∈ res8.path.tail, p ∉ obstacles) ∧
      res8.total_cost = pathCost cost8 res8.path) := by
  constructor
  · intro hrun hfound
    rw [find_path] at hrun
    rcases findPathWith_sound selMin selMin_spec start goal obstacles W H res4
        hrun hfound with ⟨heq, rfl⟩ | ⟨hh, hl, hc, hcost, -⟩
    · exact ⟨rfl, by rw [← heq]; simp, List.chain'_singleton _, by simp, rfl⟩
    · refine ⟨hh, hl, ?_, ?_, hcost⟩
      · refine hc.imp ?_
        intro a b hab
        obtain ⟨k, hk⟩ := hab
        exact ((mem_nbrs4 obstacles W H a b k).mp hk).1
      · intro p hp
        obtain ⟨a, k, hk⟩ := chain'_tail_target res4.path hc p hp
        exact ((mem_nbrs4 obstacles W H a p k).mp hk).1.2.2.2.2.2
  · intro hrun hfound
    rw [find_path_8dir] at hrun
    rcases findPath8With_sound selMin selMin_spec start goal obstacles W H res8
        hrun hfound with ⟨heq, rfl⟩ | ⟨hh, hl, hc, hcost, -⟩
    · exact ⟨rfl, by rw [← heq]; simp, List.chain'_singleton _, by simp, rfl⟩
    · refine ⟨hh, hl, ?_, ?_, hcost⟩
      · refine hc.imp ?_
        intro a b hab
        obtain ⟨k, hk⟩ := hab
        exact ((mem_nbrs8 obstacles W H a b k).mp hk).1
      · intro p hp
        obtain ⟨a, k, hk⟩ := chain'_tail_target res8.path hc p hp
        exact ((mem_nbrs8 obstacles W H a p k).mp hk).1.2.2.2.2.2

/-- **C2**: for every admissible open-set selector (hence regardless of
how f-score ties are broken), a successful `find_path` (resp.
`find_path_8dir`) run reports a total cost that is minimal among all
start-to-goal chains of legal in-bounds obstacle-free steps under the
respective step costs. -/
theorem c2_optimality (sel : List (GridPos × Int) → GridPos × Int)
    (hsel : SelSpec sel) (start goal : GridPos) (obstacles : List GridPos)
    (W H : Int) (res4 res8 : PathResult) :
    (findPathWith sel start goal obstacles W H = some res4 →
      res4.found = true →
      ∀ q : List GridPos, q.head? = some start → q.getLast? = some goal →
        List.Chain' (stepOk4 obstacles W H) q →
        res4.total_cost ≤ pathCost cost4 q) ∧
    (findPath8With sel start goal obstacles W H = some res8 →
      res8.found = true →
      ∀ q : List GridPos, q.head? = some start → q.getLast? = some goal →
        List.Chain' (stepOk8 obstacles W H) q →
        res8.total_cost ≤ pathCost cost8 q) := by
  constructor
  · intro hrun hfound q hq1 hq2 hq3
    rcases findPathWith_sound sel hsel start goal obstacles W H res4
        hrun hfound with ⟨heq, rfl⟩ | ⟨-, -, -, -, hmin⟩
    · exact pathCost_nonneg cost4 (fun _ _ => by norm_num [cost4]) q
    · refine hmin q hq1 hq2 (hq3.imp ?_)
      intro a b hab
      exact ⟨1, (mem_nbrs4 obstacles W H a b 1).mpr ⟨hab, rfl⟩⟩
  · intro hrun hfound q hq1 hq2 hq3
    rcases findPath8With_sound sel hsel start goal obstacles W H res8
        hrun hfound with ⟨heq, rfl⟩ | ⟨-, -, -, -, hmin⟩
    · refine pathCost_nonneg cost8 (fun p q => ?_) q
      simp only [cost8]
      split <;> omega
    · refine hmin q hq1 hq2 (hq3.imp ?_)
      intro a b hab
      exact ⟨cost8 a b, (mem_nbrs8 obstacles W H a b (cost8 a b)).mpr ⟨hab, rfl⟩⟩

/-- **C1** counterexample to the unamended claim: a `find_path` run that
returns `found = true` with a path containing an obstacle position (the
start itself); the source never checks the start against the obstacle
set. -/
theorem c1_obstacle_path_cx :
    ∃ res, find_path ⟨0, 0⟩ ⟨1, 0⟩ [⟨0, 0⟩] 2 1 = some res ∧
      res.found = true ∧ ∃ p ∈ res.path, p ∈ [(⟨0, 0⟩ : GridPos)] :=
  ⟨⟨[⟨0, 0⟩, ⟨1, 0⟩], 1, true⟩, by decide, rfl, ⟨0, 0⟩, by decide, by decide⟩

/-- Witness for the C1 theorem on concrete successful runs of both
planners. -/
theorem c1_path_soundness_witness :
    ((⟨[⟨0, 0⟩, ⟨1, 0⟩, ⟨1, 1⟩], 2, true⟩ : PathResult).path.head? =
        some ⟨0, 0⟩ ∧
      (⟨[⟨0, 0⟩, ⟨1, 0⟩, ⟨1, 1⟩], 2, true⟩ : PathResult).path.getLast? =
        some ⟨1, 1⟩ ∧
      List.Chain' (stepOk4 [] 2 2)
        (⟨[⟨0, 0⟩, ⟨1, 0⟩, ⟨1, 1⟩], 2, true⟩ : PathResult).path ∧
      (∀ p ∈ (⟨[⟨0, 0⟩, ⟨1, 0⟩, ⟨1, 1⟩], 2, true⟩ : PathResult).path.tail,
        p ∉ ([] : List GridPos)) ∧
      (⟨[⟨0, 0⟩, ⟨1, 0⟩, ⟨1, 1⟩], 2, true⟩ : PathResult).total_cost =
        pathCost cost4 (⟨[⟨0, 0⟩, ⟨1, 0⟩, ⟨1, 1⟩], 2, true⟩ : PathResult).path) ∧
    ((⟨[⟨0, 0⟩, ⟨1, 1⟩], 14, true⟩ : PathResult).path.head? = some ⟨0, 0⟩ ∧
      (⟨[⟨0, 0⟩, ⟨1, 1⟩], 14, true⟩ : PathResult).path.getLast? = some ⟨1, 1⟩ ∧
      List.Chain' (stepOk8 [] 2 2)
        (⟨[⟨0, 0⟩, ⟨1, 1⟩], 14, true⟩ : PathResult).path ∧
      (∀ p ∈ (⟨[⟨0, 0⟩, ⟨1, 1⟩], 14, true⟩ : PathResult).path.tail,
        p ∉ ([] : List GridPos)) ∧
      (⟨[⟨0, 0⟩, ⟨1, 1⟩], 14, true⟩ : PathResult).total_cost =
        pathCost cost8 (⟨[⟨0, 0⟩, ⟨1, 1⟩], 14, true⟩ : PathResult).path) :=
  ⟨(c1_path_soundness ⟨0, 0⟩ ⟨1, 1⟩ [] 2 2 ⟨[⟨0, 0⟩, ⟨1, 0⟩, ⟨1, 1⟩], 2, true⟩
      ⟨[⟨0, 0⟩, ⟨1, 1⟩], 14, true⟩).1 (by decide) rfl,
    (c1_path_soundness ⟨0, 0⟩ ⟨1, 1⟩ [] 2 2 ⟨[⟨0, 0⟩, ⟨1, 0⟩, ⟨1, 1⟩], 2, true⟩
      ⟨[⟨0, 0⟩, ⟨1, 1⟩], 14, true⟩).2 (by decide) rfl⟩

/-- Witness for the C2 theorem on concrete runs and a concrete competing
path. -/
theorem c2_optimality_witness :
    (⟨[⟨0, 0⟩, ⟨1, 0⟩, ⟨1, 1⟩], 2, true⟩ : PathResult).total_cost ≤
      pathCost cost4 [⟨0, 0⟩, ⟨0, 1⟩, ⟨1, 1⟩] ∧
    (⟨[⟨0, 0⟩, ⟨1, 1⟩], 14, true⟩ : PathResult).total_cost ≤
      pathCost cost8 [⟨0, 0⟩, ⟨0, 1⟩, ⟨1, 1⟩] :=
  ⟨(c2_optimality selMin selMin_spec ⟨0, 0⟩ ⟨1, 1⟩ [] 2 2
      ⟨[⟨0, 0⟩, ⟨1, 0⟩, ⟨1, 1⟩], 2, true⟩ ⟨[⟨0, 0⟩, ⟨1, 1⟩], 14, true⟩).1
      (by decide) rfl [⟨0, 0⟩, ⟨0, 1⟩, ⟨1, 1⟩] (by decide) (by decide)
      (by simp [List.chain'_cons, stepOk4, adj4, dirs4]),
    (c2_optimality selMin selMin_spec ⟨0, 0⟩ ⟨1, 1⟩ [] 2 2
      ⟨[⟨0, 0⟩, ⟨1, 0⟩, ⟨1, 1⟩], 2, true⟩ ⟨[⟨0, 0⟩, ⟨1, 1⟩], 14, true⟩).2
      (by decide) rfl [⟨0, 0⟩, ⟨0, 1⟩, ⟨1, 1⟩] (by decide) (by decide)
      (by simp [List.chain'_cons, stepOk8, adj8, dirs8])⟩
